import Mathlib

/-!
# link-explorer: a shallow embedding of `link-explorer.cpp`

The C++ program is a small web link crawler.  This development embeds its
pure parts (`isValidURL`, `generatePermutations`, `extractLinks`, the
substring test of `isAllowedByRobots`, `std::stoi` as used by `main`) as
executable Lean functions, and its concurrent part (`crawl` and `worker`) as
a step function over an explicit state, driven by a schedule of events.

* A `std::string` is a `List Char` (`Str`).
* The network (`curl_easy_perform`) is a parameter, `Env`.
* The two `std::regex` patterns are values of a small regular-expression
  type, run by a backtracking matcher with the ECMAScript priorities
  (leftmost alternative first, greedy repetition).
-/

namespace LinkExplorer

/-- A `std::string`: a finite sequence of characters. -/
abbrev Str := List Char

/-! ## Regular expressions (`std::regex`, ECMAScript grammar) -/

/-- The fragment of the ECMAScript grammar used by the two patterns of the program. -/
inductive Regex where
  /-- One character of a class: a literal character, `[...]`, `\d`, ... -/
  | cls : (Char → Bool) → Regex
  /-- The empty pattern. -/
  | eps : Regex
  /-- Concatenation `ab`. -/
  | seq : Regex → Regex → Regex
  /-- Alternation `a|b`; the left branch has priority. -/
  | alt : Regex → Regex → Regex
  /-- Greedy repetition `a*`. -/
  | star : Regex → Regex

namespace Regex

/-- The pattern `a+`, that is `aa*`. -/
def plus (a : Regex) : Regex := seq a (star a)

/-- The pattern `a?`: greedy, the branch that takes `a` is tried first. -/
def opt (a : Regex) : Regex := alt a eps

/-- A literal character. -/
def chr (c : Char) : Regex := cls (fun d => d == c)

/-- A literal string, character by character. -/
def lit : Str → Regex
  | [] => eps
  | c :: w => seq (chr c) (lit w)

/-- The pattern `a{0,n}`, greedy. -/
def upTo (a : Regex) : Nat → Regex
  | 0 => eps
  | n + 1 => opt (seq a (upTo a n))

/-- The pattern `a{lo,lo+extra}`, greedy. -/
def rep (a : Regex) : Nat → Nat → Regex
  | 0, extra => upTo a extra
  | lo + 1, extra => seq a (rep a lo extra)

/-- Greedy iteration of one matcher `step`: each round must consume at least one
character (an iteration that matches the empty string is rejected, as in
ECMAScript), so `s.length` rounds are all that can ever happen on `s`; the
first argument counts the rounds that remain. -/
def starLoop (step : Str → (Str → Option Str) → Option Str) :
    Nat → Str → (Str → Option Str) → Option Str
  | 0, s, k => k s
  | n + 1, s, k =>
    match step s (fun s' => if s'.length < s.length then starLoop step n s' k else none) with
    | some r => some r
    | none => k s

/-- The backtracking matcher.  `exec r s k` matches `r` at the front of `s` and hands
the rest of the input to the continuation `k`; when `k` fails the matcher backtracks
into `r`.  The result is that of the first success in priority order. -/
def exec : Regex → Str → (Str → Option Str) → Option Str
  | cls p, s, k =>
    match s with
    | [] => none
    | c :: t => if p c then k t else none
  | eps, s, k => k s
  | seq a b, s, k => exec a s (fun s' => exec b s' k)
  | alt a b, s, k =>
    match exec a s k with
    | some r => some r
    | none => exec b s k
  | star a, s, k => starLoop (fun s' k' => exec a s' k') s.length s k

/-- What `std::regex_match(s, r)` returns: the whole of `s` matches `r`. -/
def regex_match (r : Regex) (s : Str) : Bool :=
  (exec r s (fun rest => if rest.isEmpty then some [] else none)).isSome

/-- The result of a successful `std::regex_search`: `match[0]` and `match.suffix()`. -/
structure SearchResult where
  /-- The matched text, `match[0]`. -/
  whole : Str
  /-- The text after the match, `match.suffix()`. -/
  suffix : Str
deriving DecidableEq, Repr

/-- What `std::regex_search(s, match, r)` finds: the match at the leftmost position where
there is one, and there the one the backtracking matcher finds first. -/
def regex_search (r : Regex) : Str → Option SearchResult
  | [] =>
    match exec r [] some with
    | some rest => some ⟨[], rest⟩
    | none => none
  | c :: t =>
    match exec r (c :: t) some with
    | some rest => some ⟨(c :: t).take ((c :: t).length - rest.length), rest⟩
    | none => regex_search r t

/-- The set of strings a pattern matches. -/
def Lang : Regex → Str → Prop
  | cls p, s => ∃ c, s = [c] ∧ p c = true
  | eps, s => s = []
  | seq a b, s => ∃ u v, s = u ++ v ∧ Lang a u ∧ Lang b v
  | alt a b, s => Lang a s ∨ Lang b s
  | star a, s => ∃ ws : List Str, s = ws.flatten ∧ ∀ w ∈ ws, Lang a w

end Regex

/-! ## Character classes -/

/-- The class `\s` for `char` in the "C" locale: space, `\t`, `\n`, `\v`, `\f`, `\r`. -/
def isSpace (c : Char) : Bool := c.toNat == 32 || (9 ≤ c.toNat && c.toNat ≤ 13)

/-- The class `\d`: `0` to `9`. -/
def isDigit (c : Char) : Bool := 48 ≤ c.toNat && c.toNat ≤ 57

/-- The class `[a-zA-Z]`. -/
def isLetter (c : Char) : Bool :=
  (97 ≤ c.toNat && c.toNat ≤ 122) || (65 ≤ c.toNat && c.toNat ≤ 90)

/-- The class `\w`: letters, digits and the underscore. -/
def isWord (c : Char) : Bool := isLetter c || isDigit c || c == '_'

/-- The class `[a-zA-Z0-9\-]` of the host label. -/
def isLabelChar (c : Char) : Bool := isLetter c || isDigit c || c == '-'

/-- The class `[\w\-._~:/?#[\]@!$&'()*+,;=%]` of the path. -/
def isPathChar (c : Char) : Bool :=
  isWord c || "-._~:/?#[]@!$&'()*+,;=%".toList.contains c

/-- The class `[^\s"]` of the link pattern. -/
def isLinkChar (c : Char) : Bool := !(isSpace c || c == '"')

/-! ## `isValidURL` -/

open Regex in
/-- The pattern of `isValidURL`:
`^((http|https)://)?([a-zA-Z0-9\-]+\.[a-zA-Z]{2,6}|localhost)(:\d+)?(/[\w\-._~:/?#[\]@!$&'()*+,;=%]*)?$`.
The anchors `^` and `$` are those of `regex_match`, which matches the whole string. -/
def urlPattern : Regex :=
  seq (opt (seq (alt (lit "http".toList) (lit "https".toList)) (lit "://".toList)))
  (seq (alt (seq (plus (cls isLabelChar)) (seq (chr '.') (rep (cls isLetter) 2 4)))
            (lit "localhost".toList))
  (seq (opt (seq (chr ':') (plus (cls isDigit))))
       (opt (seq (chr '/') (star (cls isPathChar))))))

/-- `bool isValidURL(const std::string& url)`. -/
def isValidURL (url : Str) : Bool := Regex.regex_match urlPattern url

/-! ## `std::stoi` -/

/-- The two exceptions `std::stoi` throws. -/
inductive StoiError where
  /-- `std::invalid_argument`: no conversion could be performed. -/
  | invalid_argument : StoiError
  /-- `std::out_of_range`: the value does not fit an `int`. -/
  | out_of_range : StoiError
deriving DecidableEq, Repr

/-- The value of a run of decimal digits, most significant first. -/
def digitsValue (ds : Str) : Nat := ds.foldl (fun acc c => 10 * acc + (c.toNat - 48)) 0

/-- The digits part of `std::stoi`: at least one digit, converted, and checked
against the range of a 32-bit `int`; what follows the digits is ignored. -/
def stoiDigits (negative : Bool) (s : Str) : Except StoiError Int :=
  let ds := s.takeWhile isDigit
  if ds.isEmpty then .error .invalid_argument
  else
    let v : Int := if negative then -(digitsValue ds : Int) else (digitsValue ds : Int)
    if v < -2147483648 ∨ 2147483647 < v then .error .out_of_range else .ok v

/-- `std::stoi(s)` (base 10): leading white space is skipped, then an optional sign, then
the digits.  An exception is an `Except.error`. -/
def stoi (s : Str) : Except StoiError Int :=
  match s.dropWhile isSpace with
  | '-' :: t => stoiDigits true t
  | '+' :: t => stoiDigits false t
  | t => stoiDigits false t

/-! ## The network -/

/-- `CURLE_OK`. -/
def CURLE_OK : Nat := 0

/-- The outside world as the program sees it through libcurl. -/
structure Env where
  /-- A GET of a URL: `none` when `curl_easy_init` returns `NULL`, else the `CURLcode` of
  `curl_easy_perform` and what `WriteCallback` collected in `readBuffer`. -/
  get : Str → Option (Nat × Str)
  /-- A header-only request (`CURLOPT_NOBODY`) of a URL: the value of `res` when
  `checkLink` returns. -/
  head : Str → Nat

/-! ## `isAllowedByRobots` -/

/-- `hay.find(needle)`: the first position where `needle` occurs in `hay`; `none` is
`std::string::npos`. -/
def find (hay needle : Str) : Option Nat :=
  match hay with
  | [] => if needle.isPrefixOf [] then some 0 else none
  | c :: t =>
    if needle.isPrefixOf (c :: t) then some 0
    else
      match find t needle with
      | some i => some (i + 1)
      | none => none

/-- `bool isAllowedByRobots(const std::string& url)`. -/
def isAllowedByRobots (env : Env) (url : Str) : Bool :=
  let robotsUrl := url ++ "/robots.txt".toList
  let readBuffer : Str :=
    match env.get robotsUrl with
    | some (_, buf) => buf
    | none => []
  find readBuffer "Disallow: /".toList == none

/-! ## `generatePermutations` -/

/-- The order of `std::less<std::string>`: lexicographic by character code, a proper
prefix first. -/
def strLt : Str → Str → Bool
  | _, [] => false
  | [], _ :: _ => true
  | a :: s, b :: t => a.toNat < b.toNat || (a == b && strLt s t)

/-- `std::set<std::string>::insert`, on the sorted sequence of the set's elements: the
new element goes before the first greater one, and a set that already holds an equivalent
element is left as it is. -/
def setInsert (x : Str) : List Str → List Str
  | [] => [x]
  | y :: ys =>
    if strLt x y then x :: y :: ys
    else if strLt y x then y :: setInsert x ys
    else y :: ys

/-- `std::set<std::string> generatePermutations(const std::string& baseUrl)`; the result is
the sequence of the set's elements in iteration order. -/
def generatePermutations (baseUrl : Str) : List Str :=
  let urls : List Str := []
  let urls := setInsert ("http://".toList ++ baseUrl) urls
  let urls := setInsert ("https://".toList ++ baseUrl) urls
  let urls := setInsert ("http://www.".toList ++ baseUrl) urls
  let urls := setInsert ("https://www.".toList ++ baseUrl) urls
  let subdomains : List Str := ["".toList, "www".toList, "blog".toList, "shop".toList, "test".toList]
  subdomains.foldl
    (fun urls sub =>
      if !sub.isEmpty then
        let urls := setInsert ("http://".toList ++ sub ++ ".".toList ++ baseUrl) urls
        setInsert ("https://".toList ++ sub ++ ".".toList ++ baseUrl) urls
      else urls)
    urls

/-! ## `extractLinks` -/

open Regex in
/-- The pattern of `extractLinks`: `(http|https)://[^\s"]+`. -/
def linkRegex : Regex :=
  seq (alt (lit "http".toList) (lit "https".toList))
    (seq (lit "://".toList) (plus (cls isLinkChar)))

/-- The `while` loop of `extractLinks`, on the text from `searchStart` on.  The first
argument bounds the number of rounds; `none` means the bound was reached. -/
def extractLinksLoop : Nat → Str → Option (List Str)
  | 0, _ => none
  | n + 1, s =>
    match Regex.regex_search linkRegex s with
    | none => some []
    | some m =>
      match extractLinksLoop n m.suffix with
      | some links => some (m.whole :: links)
      | none => none

/-- `std::vector<std::string> extractLinks(const std::string& html)`.  A round of the
loop that matches leaves less text, so `html.length + 1` rounds are reached only by a
loop that does not end: `none` is a call that does not return. -/
def extractLinks (html : Str) : Option (List Str) := extractLinksLoop (html.length + 1) html

/-! ## `checkLink`, `worker` and `crawl` -/

/-- `bool checkLink(const std::string& url)`. -/
def checkLink (env : Env) (url : Str) : Bool := env.head url == CURLE_OK

/-- Lines 117 to 136 of `worker`: the request, and on `CURLE_OK` the loop that pushes the
checked links onto `foundLinks` under the mutex.  The result is the new `foundLinks`. -/
def workerBody (env : Env) (targetUrl : Str) (foundLinks : List Str) : Option (List Str) :=
  match env.get targetUrl with
  | none => some foundLinks
  | some (res, readBuffer) =>
    if res = CURLE_OK then
      match extractLinks readBuffer with
      | some links =>
        some (links.foldl (fun found link => if checkLink env link then found ++ [link] else found)
          foundLinks)
      | none => none
    else some foundLinks

/-- Where a worker thread stands. -/
inductive WorkerPc where
  /-- The thread exists and has not run `activeThreads++` yet. -/
  | created : WorkerPc
  /-- After `activeThreads++`, before the request. -/
  | fetching : WorkerPc
  /-- After the request and the critical section, before `activeThreads--`. -/
  | sleeping : WorkerPc
  /-- After `activeThreads--`: the thread can be joined. -/
  | finished : WorkerPc
deriving DecidableEq, Repr

/-- One step of a thread that runs `worker(targetUrl, foundLinks, mtx, delay)`, on the
shared `activeThreads` and `foundLinks`.  The request touches only the thread's own
`readBuffer` and the critical section is atomic under `mtx`, so the two are one step. -/
def worker (env : Env) (targetUrl : Str) (pc : WorkerPc) (activeThreads : Int)
    (foundLinks : List Str) : Option (WorkerPc × Int × List Str) :=
  match pc with
  | .created => some (.fetching, activeThreads + 1, foundLinks)
  | .fetching =>
    match workerBody env targetUrl foundLinks with
    | some found => some (.sleeping, activeThreads, found)
    | none => none
  | .sleeping => some (.finished, activeThreads - 1, foundLinks)
  | .finished => none

/-- Where the thread that runs `crawl` stands. -/
inductive CoordPc where
  /-- At the head of the `for` loop over `urlsToVisit`, before the test of `activeThreads`. -/
  | gate : CoordPc
  /-- In `std::this_thread::yield()`. -/
  | yielding : CoordPc
  /-- Before `threadPool.emplace_back(worker, ...)`. -/
  | spawning : CoordPc
  /-- In the loop of `thread.join()`, before the join of the thread of this index. -/
  | joining : Nat → CoordPc
  /-- After `displayLinks(foundLinks)`. -/
  | done : CoordPc
deriving DecidableEq, Repr

/-- The state of a run of `crawl`. -/
structure CrawlState where
  /-- The elements of `urlsToVisit` the `for` loop has not finished with. -/
  pending : List Str
  /-- The position of the thread that runs `crawl`. -/
  coord : CoordPc
  /-- The threads of `threadPool` in order, with the `targetUrl` of each. -/
  workers : List (Str × WorkerPc)
  /-- The global `activeThreads`. -/
  activeThreads : Int
  /-- The shared `foundLinks`. -/
  foundLinks : List Str
  /-- The argument of `displayLinks`, once it has been called. -/
  displayed : Option (List Str)

/-- Which thread takes the next step. -/
inductive Event where
  /-- The thread that runs `crawl`. -/
  | coord : Event
  /-- The thread of `threadPool` with this index. -/
  | worker : Nat → Event
deriving DecidableEq, Repr

/-- One step of the thread that runs `crawl`; `none` when the thread is blocked (in a
`join`) or has finished. -/
def crawlStep (maxThreads : Int) (st : CrawlState) : Option CrawlState :=
  match st.coord with
  | .gate =>
    match st.pending with
    | [] => some { st with coord := .joining 0 }
    | _ :: _ =>
      if st.activeThreads ≥ maxThreads then some { st with coord := .yielding }
      else some { st with coord := .spawning }
  | .yielding => some { st with coord := .spawning }
  | .spawning =>
    match st.pending with
    | [] => none
    | targetUrl :: rest =>
      some { st with pending := rest, coord := .gate,
                     workers := st.workers ++ [(targetUrl, .created)] }
  | .joining j =>
    match st.workers.get? j with
    | some (_, pc) => if pc = .finished then some { st with coord := .joining (j + 1) } else none
    | none => some { st with coord := .done, displayed := some st.foundLinks }
  | .done => none

/-- One step of the whole program: the thread named by the event moves. -/
def step (env : Env) (maxThreads : Int) (st : CrawlState) : Event → Option CrawlState
  | .coord => crawlStep maxThreads st
  | .worker i =>
    match st.workers.get? i with
    | none => none
    | some (targetUrl, pc) =>
      match worker env targetUrl pc st.activeThreads st.foundLinks with
      | some (pc', active, found) =>
        some { st with workers := st.workers.set i (targetUrl, pc'),
                       activeThreads := active, foundLinks := found }
      | none => none

/-- The steps of a schedule, one after the other; `none` when the schedule asks for a
step that cannot be taken. -/
def run (env : Env) (maxThreads : Int) : List Event → CrawlState → Option CrawlState
  | [], st => some st
  | e :: es, st =>
    match step env maxThreads st e with
    | some st' => run env maxThreads es st'
    | none => none

/-- The state in which `crawl(url, ...)` enters its `for` loop. -/
def crawlInit (url : Str) : CrawlState :=
  { pending := generatePermutations url, coord := .gate, workers := [],
    activeThreads := 0, foundLinks := [], displayed := none }

/-- `void crawl(const std::string& url, int maxThreads, int delay, int depth)` under a
schedule: the links handed to `displayLinks`, or `none` when the schedule does not bring
the crawl to that call.  `delay` only sets how long a worker sleeps and `depth` is not
used.  The prompt and `saveLinks` that follow `displayLinks` write `foundLinks` to a file
and change nothing here. -/
def crawl (env : Env) (url : Str) (maxThreads _delay _depth : Int) (sched : List Event) :
    Option (List Str) :=
  match run env maxThreads sched (crawlInit url) with
  | some st => st.displayed
  | none => none

/-! ## `main` -/

/-- How the process ends. -/
inductive Outcome where
  /-- `main` returns this value. -/
  | exit : Int → Outcome
  /-- An exception leaves `main`: `std::terminate` is called. -/
  | uncaught : StoiError → Outcome
deriving DecidableEq, Repr

/-- `int main(int argc, char* argv[])`, with `argv` the list of its `argc` strings; `none`
when the schedule does not bring the crawl to its end.  The three calls of `std::stoi`
come before the check of the URL, as in the source. -/
def main (env : Env) (argv : List Str) (sched : List Event) : Option Outcome :=
  match argv with
  | [_, url, a2, a3, a4] =>
    match stoi a2 with
    | .error e => some (.uncaught e)
    | .ok maxThreads =>
      match stoi a3 with
      | .error e => some (.uncaught e)
      | .ok delay =>
        match stoi a4 with
        | .error e => some (.uncaught e)
        | .ok depth =>
          if !isValidURL url then some (.exit 1)
          else if !isAllowedByRobots env url then some (.exit 1)
          else
            match crawl env url maxThreads delay depth sched with
            | some _ => some (.exit 0)
            | none => none
  | _ => some (.exit 1)

/-! ## Schedules and stub environments used as concrete inputs -/

/-- The schedule that runs the workers one after the other: each of the `n` workers is
spawned and runs to its end before the next one, then the coordinator joins them all and
calls `displayLinks`. -/
def sequentialSchedule (n : Nat) : List Event :=
  ((List.range n).map (fun i =>
      [Event.coord, Event.coord, Event.worker i, Event.worker i, Event.worker i])).flatten
    ++ List.replicate (n + 2) Event.coord

/-- A stub of the network: every GET succeeds with the same body, every header-only
request succeeds. -/
def stubEnv (body : Str) : Env := { get := fun _ => some (CURLE_OK, body), head := fun _ => CURLE_OK }

/-! ## Definitions used to state the properties -/

/-- The shape of a valid URL in the words of the specification: an optional scheme, then
`localhost` or a label, one dot and a top-level domain of 2 to 6 letters, then an optional
port, then an optional path. -/
def ValidURLShape (s : Str) : Prop :=
  ∃ scheme host port path : Str, s = scheme ++ host ++ port ++ path ∧
    (scheme = [] ∨ scheme = "http://".toList ∨ scheme = "https://".toList) ∧
    (host = "localhost".toList ∨
      ∃ label tld : Str, host = label ++ '.' :: tld ∧ label ≠ [] ∧
        (∀ c ∈ label, c.isAlpha = true ∨ c.isDigit = true ∨ c = '-') ∧
        2 ≤ tld.length ∧ tld.length ≤ 6 ∧ ∀ c ∈ tld, c.isAlpha = true) ∧
    (port = [] ∨ ∃ ds : Str, port = ':' :: ds ∧ ds ≠ [] ∧ ∀ c ∈ ds, c.isDigit = true) ∧
    (path = [] ∨ ∃ p : Str, path = '/' :: p ∧
      ∀ c ∈ p, c.isAlpha = true ∨ c.isDigit = true ∨ c = '_' ∨
        c ∈ "-._~:/?#[]@!$&'()*+,;=%".toList)

/-- A `robots.txt` that disallows everything. -/
def robotsDisallowAll : Str := "User-agent: *\nDisallow: /\n".toList

/-- A command line with a URL that is not valid and a `maxThreads` that is not a number. -/
def argvBadNumber : List Str :=
  ["link-explorer".toList, "not a url".toList, "abc".toList, "0".toList, "0".toList]

/-- A command line with a URL that is not valid and numeric arguments. -/
def argvBadUrl : List Str :=
  ["link-explorer".toList, "not a url".toList, "4".toList, "0".toList, "0".toList]

/-- A command line for `example.com` with `maxThreads = 4` and `delay = 0`. -/
def argvExample : List Str :=
  ["link-explorer".toList, "example.com".toList, "4".toList, "0".toList, "0".toList]

/-- The elements of a `std::set<std::string>` in iteration order: strictly increasing. -/
def SetSorted (l : List Str) : Prop := l.Pairwise (fun a b => strLt a b = true)

/-- The ten candidates in the words of the specification: a scheme, then nothing or one
of four subdomains, then the host. -/
def candidateList (H : Str) : List Str :=
  ["http://".toList, "https://".toList].flatMap (fun s =>
    ["".toList, "www.".toList, "blog.".toList, "shop.".toList, "test.".toList].map
      (fun v => s ++ v ++ H))

/-- The text begins with `http://` or with `https://`. -/
def hasScheme (s : Str) : Bool :=
  "http://".toList.isPrefixOf s || "https://".toList.isPrefixOf s

/-- The number of positions of the text at which the needle occurs. -/
def countOcc (needle : Str) : Str → Nat
  | [] => if needle.isPrefixOf [] then 1 else 0
  | c :: t => (if needle.isPrefixOf (c :: t) then 1 else 0) + countOcc needle t

/-- The greedy run after the scheme of a link: at least one character of `[^\s"]`, then
as many as there are; the result is the text after the run. -/
def linkRun : Str → Option Str
  | [] => none
  | c :: t => if isLinkChar c then some (t.dropWhile isLinkChar) else none

/-- The match of the link pattern at the front of a text, read off the pattern: a
scheme, then the greedy run.  The result is the text after the match. -/
def linkAt (s : Str) : Option Str :=
  if "http://".toList.isPrefixOf s then linkRun (s.drop 7)
  else if "https://".toList.isPrefixOf s then linkRun (s.drop 8)
  else none

/-- A URL-shaped string in the words of the specification: `http://` or `https://`
followed by one or more characters that are neither white space nor a double quote. -/
def UrlShaped (u : Str) : Prop :=
  ∃ scheme w : Str, (scheme = "http://".toList ∨ scheme = "https://".toList) ∧ w ≠ [] ∧
    (∀ c ∈ w, isSpace c = false ∧ c ≠ '"') ∧ u = scheme ++ w

/-- The text is empty or begins with white space or a double quote. -/
def EndsLink (rest : Str) : Prop := ∀ c r, rest = c :: r → isSpace c = true ∨ c = '"'

/-- A body made of URL-shaped strings with white space between them: the first string,
then pairs of a separator and a string. -/
def separatedBody (u : Str) (rest : List (Str × Str)) : Str :=
  u ++ (rest.map (fun p => p.1 ++ p.2)).flatten

/-- What one worker adds to `foundLinks`: the extracted links of the body that pass
`checkLink`, in order, when the request succeeds, and nothing otherwise. -/
def workerContribution (env : Env) (targetUrl : Str) : List Str :=
  match env.get targetUrl with
  | none => []
  | some (res, readBuffer) =>
    if res = CURLE_OK then
      match extractLinks readBuffer with
      | some links => links.filter (checkLink env)
      | none => []
    else []

/-- The workers that are past their critical section. -/
def pastCritical (w : Str × WorkerPc) : Bool :=
  match w.2 with
  | .sleeping => true
  | .finished => true
  | _ => false

/-- The targets of the workers that are past their critical section, in pool order. -/
def completedTargets (workers : List (Str × WorkerPc)) : List Str :=
  (workers.filter pastCritical).map Prod.fst

/-- The invariant of a run of `crawl`. -/
structure CrawlInv (env : Env) (url : Str) (st : CrawlState) : Prop where
  /-- The targets of the workers, then the pending URLs, are the candidates. -/
  targets : st.workers.map Prod.fst ++ st.pending = generatePermutations url
  /-- `foundLinks` is made of the contributions of the workers past their critical
  section, in the order in which they took the mutex. -/
  found : ∃ order : List Str,
    st.foundLinks = (order.map (workerContribution env)).flatten ∧
    order.Perm (completedTargets st.workers)
  /-- In the join loop nothing is pending and the threads joined so far have finished. -/
  joined : ∀ j, st.coord = .joining j →
    st.pending = [] ∧ ∀ i < j, ∃ t, st.workers.get? i = some (t, .finished)
  /-- After `displayLinks` every worker has finished and the links displayed are
  `foundLinks`. -/
  finished : st.coord = .done →
    st.pending = [] ∧ (∀ w ∈ st.workers, w.2 = .finished) ∧ st.displayed = some st.foundLinks
  /-- Nothing is displayed before. -/
  notDisplayed : st.coord ≠ .done → st.displayed = none

/-- A body with two distinct links. -/
def twoLinksBody : Str := "http://a.b https://c.d".toList

/-- A stub of the network in which the request for one URL fails with `CURLcode` 6
(`CURLE_COULDNT_RESOLVE_HOST`) and every other request succeeds with the same body. -/
def failingEnv (failing body : Str) : Env :=
  { get := fun u => if u = failing then some (6, []) else some (CURLE_OK, body),
    head := fun _ => CURLE_OK }

/-- A schedule under which the coordinator spawns a second worker while the first one
is running, with `maxThreads = 1`: the gate sees `activeThreads >= maxThreads`, yields
once and goes on. -/
def overlapSchedule : List Event :=
  [.coord, .coord, .worker 0, .coord, .coord, .coord, .worker 1]

/-- A schedule under which all ten workers are started before any of them ends, with
`maxThreads = 1`. -/
def allStartedSchedule : List Event :=
  [.coord, .coord, .worker 0] ++
    ((List.range 9).map (fun i => [Event.coord, Event.coord, Event.coord, Event.worker (i + 1)])).flatten

/-! ## Theorems -/

open Regex

namespace Regex

/-- Soundness of the greedy loop, given soundness of its step. -/
theorem starLoop_sound (a : Regex) (step : Str → (Str → Option Str) → Option Str)
    (hstep : ∀ s k x, step s k = some x → ∃ u v, s = u ++ v ∧ Lang a u ∧ k v = some x) :
    ∀ (n : Nat) (s : Str) (k : Str → Option Str) (x : Str), starLoop step n s k = some x →
      ∃ u v, s = u ++ v ∧ Lang (star a) u ∧ k v = some x := by
  intro n
  induction n with
  | zero =>
    intro s k x h
    exact ⟨[], s, rfl, ⟨[], rfl, by simp⟩, h⟩
  | succ n ih =>
    intro s k x h
    simp only [starLoop] at h
    split at h
    · rename_i r hr
      obtain ⟨u, v, hs, hu, hk⟩ := hstep _ _ _ hr
      split at hk
      · obtain ⟨u', v', hv, ⟨ws, hws, hall⟩, hk'⟩ := ih v k r hk
        refine ⟨u ++ u', v', by simp [hs, hv], ⟨u :: ws, by simp [hws], ?_⟩, ?_⟩
        · intro w hw
          rcases List.mem_cons.1 hw with rfl | hw
          · exact hu
          · exact hall w hw
        · simpa using h ▸ hk'
      · exact absurd hk (by simp)
    · exact ⟨[], s, rfl, ⟨[], rfl, by simp⟩, h⟩

/-- Soundness of the matcher: a result comes from a split of the input into a word of
the pattern and a rest the continuation accepts with that result. -/
theorem exec_sound : ∀ (r : Regex) (s : Str) (k : Str → Option Str) (x : Str),
    exec r s k = some x → ∃ u v, s = u ++ v ∧ Lang r u ∧ k v = some x := by
  intro r
  induction r with
  | cls p =>
    intro s k x h
    cases s with
    | nil => simp [exec] at h
    | cons c t =>
      simp only [exec] at h
      split at h
      · rename_i hp
        exact ⟨[c], t, rfl, ⟨c, rfl, hp⟩, h⟩
      · exact absurd h (by simp)
  | eps =>
    intro s k x h
    exact ⟨[], s, rfl, rfl, h⟩
  | seq a b iha ihb =>
    intro s k x h
    simp only [exec] at h
    obtain ⟨u, v, hs, hu, hk⟩ := iha _ _ _ h
    obtain ⟨u', v', hv, hu', hk'⟩ := ihb _ _ _ hk
    exact ⟨u ++ u', v', by simp [hs, hv], ⟨u, u', rfl, hu, hu'⟩, hk'⟩
  | alt a b iha ihb =>
    intro s k x h
    simp only [exec] at h
    split at h
    · rename_i r hr
      obtain ⟨u, v, hs, hu, hk⟩ := iha _ _ _ hr
      exact ⟨u, v, hs, Or.inl hu, by simpa using h ▸ hk⟩
    · obtain ⟨u, v, hs, hu, hk⟩ := ihb _ _ _ h
      exact ⟨u, v, hs, Or.inr hu, hk⟩
  | star a iha =>
    intro s k x h
    simp only [exec] at h
    exact starLoop_sound a _ (fun s k x hx => iha s k x hx) _ _ _ _ h

/-- Completeness of the greedy loop, given completeness of its step: with at least as
many rounds as characters, a word of `a*` followed by a rest the continuation accepts is
matched. -/
theorem starLoop_complete (a : Regex) (step : Str → (Str → Option Str) → Option Str)
    (hstep : ∀ u v k, Lang a u → (k v).isSome = true → (step (u ++ v) k).isSome = true)
    (v : Str) (k : Str → Option Str) (hk : (k v).isSome = true) :
    ∀ (ws : List Str), (∀ w ∈ ws, Lang a w) → ∀ n, (ws.flatten ++ v).length ≤ n →
      (starLoop step n (ws.flatten ++ v) k).isSome = true := by
  intro ws
  induction ws with
  | nil =>
    intro _ n _
    cases n with
    | zero => simpa [starLoop] using hk
    | succ n =>
      simp only [starLoop, List.flatten_nil, List.nil_append]
      split
      · rfl
      · exact hk
  | cons w ws ih =>
    intro hall n hn
    have hw : Lang a w := hall w (List.mem_cons_self _ _)
    have hws : ∀ w' ∈ ws, Lang a w' := fun w' h' => hall w' (List.mem_cons_of_mem _ h')
    cases w with
    | nil => simpa using ih hws n (by simpa using hn)
    | cons c w =>
      cases n with
      | zero => simp at hn
      | succ n =>
        simp only [starLoop]
        have hlen : (ws.flatten ++ v).length ≤ n := by
          simp only [List.flatten_cons, List.cons_append, List.length_cons, List.length_append]
            at hn ⊢
          omega
        have h1 := hstep (c :: w) (ws.flatten ++ v)
          (fun s' => if s'.length < (((c :: w) :: ws).flatten ++ v).length
            then starLoop step n s' k else none) hw
          (by
            have : (ws.flatten ++ v).length < (((c :: w) :: ws).flatten ++ v).length := by
              simp only [List.flatten_cons, List.cons_append, List.length_cons,
                List.length_append]
              omega
            simp only [this, if_true]
            exact ih hws n hlen)
        have heq : (c :: w) ++ (ws.flatten ++ v) = ((c :: w) :: ws).flatten ++ v := by simp
        rw [heq] at h1
        split
        · rfl
        · rename_i hnone
          rw [hnone] at h1
          exact absurd h1 (by simp)

/-- Completeness of the matcher: a word of the pattern followed by a rest the
continuation accepts is matched. -/
theorem exec_complete : ∀ (r : Regex) (u v : Str) (k : Str → Option Str),
    Lang r u → (k v).isSome = true → (exec r (u ++ v) k).isSome = true := by
  intro r
  induction r with
  | cls p =>
    intro u v k hu hk
    obtain ⟨c, rfl, hp⟩ := hu
    simpa [exec, hp] using hk
  | eps =>
    intro u v k hu hk
    cases hu
    simpa [exec] using hk
  | seq a b iha ihb =>
    intro u v k hu hk
    obtain ⟨u1, u2, rfl, h1, h2⟩ := hu
    simp only [exec, List.append_assoc]
    exact iha u1 (u2 ++ v) _ h1 (ihb u2 v k h2 hk)
  | alt a b iha ihb =>
    intro u v k hu hk
    simp only [exec]
    split
    · rfl
    · rename_i hnone
      rcases hu with h | h
      · have := iha u v k h hk
        rw [hnone] at this
        exact absurd this (by simp)
      · exact ihb u v k h hk
  | star a iha =>
    intro u v k hu hk
    obtain ⟨ws, rfl, hall⟩ := hu
    simp only [exec]
    exact starLoop_complete a _ (fun u v k hu hk => iha u v k hu hk) v k hk ws hall _ (le_refl _)

/-- `regex_match` decides membership in the language of the pattern. -/
theorem regex_match_iff (r : Regex) (s : Str) : regex_match r s = true ↔ Lang r s := by
  unfold regex_match
  constructor
  · intro h
    obtain ⟨x, hx⟩ := Option.isSome_iff_exists.1 h
    obtain ⟨u, v, hs, hu, hk⟩ := exec_sound r s _ x hx
    cases v with
    | nil => simpa [hs] using hu
    | cons c v => simp at hk
  · intro h
    have := exec_complete r s [] (fun rest => if rest.isEmpty then some [] else none) h (by simp)
    simpa using this

end Regex

theorem isLetter_eq (c : Char) : isLetter c = c.isAlpha := by
  simp only [isLetter, Char.isAlpha, Char.isUpper, Char.isLower, Char.toNat, UInt32.le_def,
    UInt32.toNat]
  rw [Bool.or_comm]
  rfl

theorem isDigit_eq (c : Char) : isDigit c = c.isDigit := by
  simp only [isDigit, Char.isDigit, Char.toNat, UInt32.le_def, UInt32.toNat]
  rfl

namespace Regex

theorem lang_chr (c : Char) (s : Str) : Lang (chr c) s ↔ s = [c] := by
  simp [chr, Lang]

theorem lang_lit (w s : Str) : Lang (lit w) s ↔ s = w := by
  induction w generalizing s with
  | nil => simp [lit, Lang]
  | cons c w ih =>
    simp only [lit, Lang, ih]
    constructor
    · rintro ⟨u, v, rfl, ⟨d, rfl, hd⟩, rfl⟩
      simp at hd
      simp [hd]
    · rintro rfl
      exact ⟨[c], w, rfl, ⟨c, rfl, by simp⟩, rfl⟩

theorem lang_opt (a : Regex) (s : Str) : Lang (opt a) s ↔ s = [] ∨ Lang a s := by
  simp [opt, Lang, or_comm]

theorem lang_star_cls (p : Char → Bool) (s : Str) :
    Lang (star (cls p)) s ↔ ∀ c ∈ s, p c = true := by
  simp only [Lang]
  constructor
  · rintro ⟨ws, rfl, hall⟩ c hc
    obtain ⟨w, hw, hcw⟩ := List.mem_flatten.1 hc
    obtain ⟨d, rfl, hd⟩ := hall w hw
    simp at hcw
    exact hcw ▸ hd
  · intro h
    refine ⟨s.map (fun c => [c]), ?_, ?_⟩
    · clear h
      induction s with
      | nil => rfl
      | cons c s ih => simpa using ih
    · intro w hw
      obtain ⟨c, hc, rfl⟩ := List.mem_map.1 hw
      exact ⟨c, rfl, h c hc⟩

theorem lang_plus_cls (p : Char → Bool) (s : Str) :
    Lang (plus (cls p)) s ↔ s ≠ [] ∧ ∀ c ∈ s, p c = true := by
  unfold plus
  rw [Lang]
  simp only [lang_star_cls]
  constructor
  · rintro ⟨u, v, rfl, ⟨c, rfl, hc⟩, hv⟩
    refine ⟨by simp, ?_⟩
    intro d hd
    simp at hd
    rcases hd with rfl | hd
    · exact hc
    · exact hv d hd
  · rintro ⟨hne, h⟩
    cases s with
    | nil => exact absurd rfl hne
    | cons c s =>
      exact ⟨[c], s, rfl, ⟨c, rfl, h c (by simp)⟩, fun d hd => h d (by simp [hd])⟩

theorem lang_upTo_cls (p : Char → Bool) (n : Nat) (s : Str) :
    Lang (upTo (cls p) n) s ↔ s.length ≤ n ∧ ∀ c ∈ s, p c = true := by
  induction n generalizing s with
  | zero =>
    simp only [upTo, Lang]
    constructor
    · rintro rfl
      simp
    · rintro ⟨h, _⟩
      exact List.length_eq_zero.1 (Nat.le_zero.1 h)
  | succ n ih =>
    simp only [upTo, lang_opt]
    rw [Lang]
    constructor
    · rintro (rfl | ⟨u, v, rfl, ⟨c, rfl, hc⟩, hv⟩)
      · simp
      · obtain ⟨hl, hv⟩ := (ih v).1 hv
        refine ⟨by simp; omega, ?_⟩
        intro d hd
        simp at hd
        rcases hd with rfl | hd
        · exact hc
        · exact hv d hd
    · rintro ⟨hl, h⟩
      cases s with
      | nil => exact Or.inl rfl
      | cons c s =>
        right
        refine ⟨[c], s, rfl, ⟨c, rfl, h c (by simp)⟩, (ih s).2 ⟨?_, fun d hd => h d (by simp [hd])⟩⟩
        simp at hl
        omega

theorem lang_rep_cls (p : Char → Bool) (lo extra : Nat) (s : Str) :
    Lang (rep (cls p) lo extra) s ↔
      lo ≤ s.length ∧ s.length ≤ lo + extra ∧ ∀ c ∈ s, p c = true := by
  induction lo generalizing s with
  | zero => simp [rep, lang_upTo_cls]
  | succ lo ih =>
    simp only [rep]
    rw [Lang]
    constructor
    · rintro ⟨u, v, rfl, ⟨c, rfl, hc⟩, hv⟩
      obtain ⟨h1, h2, hv⟩ := (ih v).1 hv
      refine ⟨by simp; omega, by simp; omega, ?_⟩
      intro d hd
      simp at hd
      rcases hd with rfl | hd
      · exact hc
      · exact hv d hd
    · rintro ⟨h1, h2, h⟩
      cases s with
      | nil => simp at h1
      | cons c s =>
        simp at h1 h2
        exact ⟨[c], s, rfl, ⟨c, rfl, h c (by simp)⟩,
          (ih s).2 ⟨by omega, by omega, fun d hd => h d (by simp [hd])⟩⟩

end Regex

theorem isLabelChar_iff (c : Char) :
    isLabelChar c = true ↔ (c.isAlpha = true ∨ c.isDigit = true ∨ c = '-') := by
  simp [isLabelChar, isLetter_eq, isDigit_eq, or_assoc]

theorem isPathChar_iff (c : Char) :
    isPathChar c = true ↔ (c.isAlpha = true ∨ c.isDigit = true ∨ c = '_' ∨
      c ∈ "-._~:/?#[]@!$&'()*+,;=%".toList) := by
  simp only [isPathChar, isWord, isLetter_eq, isDigit_eq, Bool.or_eq_true, beq_iff_eq,
    List.contains, List.elem_eq_mem, decide_eq_true_eq, or_assoc]

theorem lang_seq (a b : Regex) (s : Str) :
    Lang (seq a b) s ↔ ∃ u v, s = u ++ v ∧ Lang a u ∧ Lang b v := by
  rw [Lang]

theorem lang_alt (a b : Regex) (s : Str) : Lang (alt a b) s ↔ Lang a s ∨ Lang b s := by
  rw [Lang]

theorem lang_scheme (u : Str) :
    Lang (opt (seq (alt (lit "http".toList) (lit "https".toList)) (lit "://".toList))) u ↔
      (u = [] ∨ u = "http://".toList ∨ u = "https://".toList) := by
  rw [lang_opt, lang_seq]
  simp only [lang_alt, lang_lit]
  constructor
  · rintro (h | ⟨a, b, rfl, (rfl | rfl), rfl⟩)
    · exact Or.inl h
    · exact Or.inr (Or.inl rfl)
    · exact Or.inr (Or.inr rfl)
  · rintro (h | rfl | rfl)
    · exact Or.inl h
    · exact Or.inr ⟨"http".toList, "://".toList, rfl, Or.inl rfl, rfl⟩
    · exact Or.inr ⟨"https".toList, "://".toList, rfl, Or.inr rfl, rfl⟩

theorem lang_host (h : Str) :
    Lang (alt (seq (plus (cls isLabelChar)) (seq (chr '.') (rep (cls isLetter) 2 4)))
            (lit "localhost".toList)) h ↔
      (h = "localhost".toList ∨
        ∃ label tld : Str, h = label ++ '.' :: tld ∧ label ≠ [] ∧
          (∀ c ∈ label, c.isAlpha = true ∨ c.isDigit = true ∨ c = '-') ∧
          2 ≤ tld.length ∧ tld.length ≤ 6 ∧ ∀ c ∈ tld, c.isAlpha = true) := by
  rw [Lang, lang_lit, Lang]
  simp only [lang_plus_cls, isLabelChar_iff]
  constructor
  · rintro (⟨label, v, rfl, ⟨hne, hl⟩, hv⟩ | h)
    · rw [Lang] at hv
      obtain ⟨d, tld, rfl, hd, ht⟩ := hv
      rw [lang_chr] at hd
      subst hd
      obtain ⟨h1, h2, h3⟩ := (lang_rep_cls _ _ _ _).1 ht
      exact Or.inr ⟨label, tld, rfl, hne, hl, h1, h2, fun c hc => by
        simpa [isLetter_eq] using h3 c hc⟩
    · exact Or.inl h
  · rintro (h | ⟨label, tld, rfl, hne, hl, h1, h2, h3⟩)
    · exact Or.inr h
    · refine Or.inl ⟨label, '.' :: tld, rfl, ⟨hne, hl⟩, ?_⟩
      rw [Lang]
      exact ⟨['.'], tld, rfl, (lang_chr _ _).2 rfl,
        (lang_rep_cls _ _ _ _).2 ⟨h1, h2, fun c hc => by simpa [isLetter_eq] using h3 c hc⟩⟩

theorem lang_port (p : Str) :
    Lang (opt (seq (chr ':') (plus (cls isDigit)))) p ↔
      (p = [] ∨ ∃ ds : Str, p = ':' :: ds ∧ ds ≠ [] ∧ ∀ c ∈ ds, c.isDigit = true) := by
  rw [lang_opt, Lang]
  simp only [lang_chr, lang_plus_cls, isDigit_eq]
  constructor
  · rintro (h | ⟨u, ds, rfl, rfl, h⟩)
    · exact Or.inl h
    · exact Or.inr ⟨ds, rfl, h⟩
  · rintro (h | ⟨ds, rfl, h⟩)
    · exact Or.inl h
    · exact Or.inr ⟨[':'], ds, rfl, rfl, h⟩

theorem lang_path (p : Str) :
    Lang (opt (seq (chr '/') (star (cls isPathChar)))) p ↔
      (p = [] ∨ ∃ q : Str, p = '/' :: q ∧
        ∀ c ∈ q, c.isAlpha = true ∨ c.isDigit = true ∨ c = '_' ∨
          c ∈ "-._~:/?#[]@!$&'()*+,;=%".toList) := by
  rw [lang_opt, Lang]
  simp only [lang_chr, lang_star_cls, isPathChar_iff]
  constructor
  · rintro (h | ⟨u, q, rfl, rfl, h⟩)
    · exact Or.inl h
    · exact Or.inr ⟨q, rfl, h⟩
  · rintro (h | ⟨q, rfl, h⟩)
    · exact Or.inl h
    · exact Or.inr ⟨['/'], q, rfl, rfl, h⟩

/-- The language of the pattern of `isValidURL` is the shape the specification describes. -/
theorem lang_urlPattern (s : Str) : Lang urlPattern s ↔ ValidURLShape s := by
  unfold urlPattern ValidURLShape
  rw [Lang]
  constructor
  · rintro ⟨scheme, v, rfl, hs, hv⟩
    rw [Lang] at hv
    obtain ⟨host, v', rfl, hh, hv'⟩ := hv
    rw [Lang] at hv'
    obtain ⟨port, path, rfl, hp, hq⟩ := hv'
    exact ⟨scheme, host, port, path, by simp, (lang_scheme _).1 hs, (lang_host _).1 hh,
      (lang_port _).1 hp, (lang_path _).1 hq⟩
  · rintro ⟨scheme, host, port, path, rfl, hs, hh, hp, hq⟩
    refine ⟨scheme, host ++ port ++ path, by simp, (lang_scheme _).2 hs, ?_⟩
    rw [Lang]
    refine ⟨host, port ++ path, by simp, (lang_host _).2 hh, ?_⟩
    rw [Lang]
    exact ⟨port, path, rfl, (lang_port _).2 hp, (lang_path _).2 hq⟩

/-- C8. `isValidURL s` is true exactly when the whole of `s` is an optional `http://` or
`https://`, then `localhost` or a label of one or more letters, digits or hyphens, one dot
and 2 to 6 letters, then an optional `:` with one or more digits, then an optional path that
starts with `/` and uses only word characters and the punctuation `-._~:/?#[]@!$&'()*+,;=%`;
and the three strings the specification names are accepted, rejected and accepted. -/
theorem isValidURL_iff_shape :
    (∀ s : Str, isValidURL s = true ↔ ValidURLShape s) ∧
    isValidURL "example.com".toList = true ∧
    isValidURL "not a url".toList = false ∧
    isValidURL "http://localhost:8080/path".toList = true := by
  refine ⟨fun s => ?_, by decide, by decide, by decide⟩
  unfold isValidURL
  rw [regex_match_iff, lang_urlPattern]

/-- `find` returns `npos` exactly when the needle does not occur in the text. -/
theorem find_eq_none_iff (hay needle : Str) : find hay needle = none ↔ ¬ needle <:+: hay := by
  induction hay with
  | nil =>
    simp only [find, List.isPrefixOf_iff_prefix]
    split
    · rename_i h
      simp [h.isInfix]
    · rename_i h
      simp only [true_iff]
      intro hin
      exact h (List.eq_nil_of_infix_nil hin ▸ List.prefix_refl _)
  | cons c t ih =>
    simp only [find, List.isPrefixOf_iff_prefix, List.infix_cons_iff]
    split
    · rename_i h
      simp [h]
    · rename_i h
      split
      · rename_i i hi
        have : ¬ (find t needle = none) := by simp [hi]
        rw [ih] at this
        simp only [not_not] at this
        simp [this]
      · rename_i hi
        simp [h, ih.1 hi]

/-- The answer of `isAllowedByRobots` in terms of the text the request returned. -/
theorem isAllowedByRobots_eq_false_iff (env : Env) (url : Str) (res : Nat) (body : Str)
    (hget : env.get (url ++ "/robots.txt".toList) = some (res, body)) :
    isAllowedByRobots env url = false ↔ "Disallow: /".toList <:+: body := by
  simp only [isAllowedByRobots, hget]
  generalize "Disallow: /".toList = needle
  have h := find_eq_none_iff body needle
  cases hf : find body needle with
  | none => simpa using h.1 hf
  | some i =>
    have : ¬ (find body needle = none) := by simp [hf]
    rw [h, not_not] at this
    simpa using this

/-- What `main` does once its arguments are read. -/
theorem main_eq (env : Env) (argv0 url a2 a3 a4 : Str) (sched : List Event)
    (maxThreads delay depth : Int) (h2 : stoi a2 = .ok maxThreads) (h3 : stoi a3 = .ok delay)
    (h4 : stoi a4 = .ok depth) :
    main env [argv0, url, a2, a3, a4] sched =
      if isValidURL url = false then some (.exit 1)
      else if isAllowedByRobots env url = false then some (.exit 1)
      else (crawl env url maxThreads delay depth sched).map (fun _ => Outcome.exit 0) := by
  simp only [main, h2, h3, h4]
  cases isValidURL url <;> cases isAllowedByRobots env url <;>
    cases crawl env url maxThreads delay depth sched <;> simp

/-- C9. For every body the request for `robots.txt` returns, `isAllowedByRobots` is false
exactly when the body contains `Disallow: /`; then `main`, called with a valid URL and
numeric arguments, returns 1, and with a body without that text (the empty body is one)
`isAllowedByRobots` is true and `main` runs the crawl and returns 0 when the crawl ends. -/
theorem robots_gate (env : Env) (url : Str) (res : Nat) (body : Str)
    (hget : env.get (url ++ "/robots.txt".toList) = some (res, body))
    (argv0 a2 a3 a4 : Str) (maxThreads delay depth : Int) (sched : List Event)
    (hvalid : isValidURL url = true)
    (h2 : stoi a2 = .ok maxThreads) (h3 : stoi a3 = .ok delay) (h4 : stoi a4 = .ok depth) :
    (isAllowedByRobots env url = false ↔ "Disallow: /".toList <:+: body) ∧
    ("Disallow: /".toList <:+: body →
      main env [argv0, url, a2, a3, a4] sched = some (.exit 1)) ∧
    (¬ "Disallow: /".toList <:+: body →
      isAllowedByRobots env url = true ∧
      main env [argv0, url, a2, a3, a4] sched =
        (crawl env url maxThreads delay depth sched).map (fun _ => Outcome.exit 0)) := by
  have hiff := isAllowedByRobots_eq_false_iff env url res body hget
  refine ⟨hiff, ?_, ?_⟩
  · intro hin
    rw [main_eq env argv0 url a2 a3 a4 sched maxThreads delay depth h2 h3 h4]
    simp [hvalid, hiff.2 hin]
  · intro hnot
    have hallowed : isAllowedByRobots env url = true := by
      cases h : isAllowedByRobots env url with
      | true => rfl
      | false => exact absurd (hiff.1 h) hnot
    refine ⟨hallowed, ?_⟩
    rw [main_eq env argv0 url a2 a3 a4 sched maxThreads delay depth h2 h3 h4]
    simp [hvalid, hallowed]

/-- C9, at concrete inputs: a `robots.txt` with `Disallow: /` in its second line, for
which `main` returns 1, and an empty `robots.txt`, for which the crawl goes on. -/
theorem robots_gate_witness :
    (isAllowedByRobots (stubEnv robotsDisallowAll) "example.com".toList = false ∧
      main (stubEnv robotsDisallowAll) argvExample [] = some (.exit 1)) ∧
    (isAllowedByRobots (stubEnv []) "example.com".toList = true ∧
      main (stubEnv []) argvExample (sequentialSchedule 10) =
        (crawl (stubEnv []) "example.com".toList 4 0 0 (sequentialSchedule 10)).map
          (fun _ => Outcome.exit 0)) :=
  ⟨⟨(robots_gate (stubEnv robotsDisallowAll) "example.com".toList CURLE_OK robotsDisallowAll
        rfl "link-explorer".toList "4".toList "0".toList "0".toList 4 0 0 [] (by decide) rfl
        rfl rfl).1.2 (by decide),
    (robots_gate (stubEnv robotsDisallowAll) "example.com".toList CURLE_OK robotsDisallowAll
        rfl "link-explorer".toList "4".toList "0".toList "0".toList 4 0 0 [] (by decide) rfl
        rfl rfl).2.1 (by decide)⟩,
   (robots_gate (stubEnv []) "example.com".toList CURLE_OK [] rfl "link-explorer".toList
      "4".toList "0".toList "0".toList 4 0 0 (sequentialSchedule 10) (by decide) rfl rfl
      rfl).2.2 (by decide)⟩

theorem char_eq_of_toNat_eq {a b : Char} (h : a.toNat = b.toNat) : a = b := by
  apply Char.ext
  apply UInt32.ext
  exact h

theorem strLt_irrefl (s : Str) : strLt s s = false := by
  induction s with
  | nil => rfl
  | cons a s ih => simp [strLt, ih]

theorem strLt_trans : ∀ (s t u : Str), strLt s t = true → strLt t u = true → strLt s u = true
  | _, [], _, h, _ => by simp [strLt] at h
  | _, _ :: _, [], _, h => by simp [strLt] at h
  | [], _ :: _, _ :: _, _, _ => by simp [strLt]
  | a :: s, b :: t, c :: u, h1, h2 => by
    simp only [strLt, Bool.or_eq_true, decide_eq_true_eq, Bool.and_eq_true, beq_iff_eq] at *
    rcases h1 with h1 | ⟨rfl, h1⟩
    · rcases h2 with h2 | ⟨rfl, _⟩
      · exact Or.inl (by omega)
      · exact Or.inl h1
    · rcases h2 with h2 | ⟨rfl, h2⟩
      · exact Or.inl h2
      · exact Or.inr ⟨rfl, strLt_trans s t u h1 h2⟩

theorem strLt_total : ∀ (s t : Str), strLt s t = false → strLt t s = false → s = t
  | [], [], _, _ => rfl
  | [], _ :: _, h, _ => by simp [strLt] at h
  | _ :: _, [], _, h => by simp [strLt] at h
  | a :: s, b :: t, h1, h2 => by
    simp only [strLt, Bool.or_eq_false_iff, decide_eq_false_iff_not, Bool.and_eq_false_iff,
      beq_eq_false_iff_ne, ne_eq] at h1 h2
    have hab : a = b := char_eq_of_toNat_eq (by omega)
    subst hab
    have h1' : strLt s t = false := by simpa using h1.2
    have h2' : strLt t s = false := by simpa using h2.2
    rw [strLt_total s t h1' h2']

theorem mem_setInsert (x : Str) (l : List Str) (z : Str) :
    z ∈ setInsert x l ↔ z = x ∨ z ∈ l := by
  induction l with
  | nil => simp [setInsert]
  | cons y ys ih =>
    simp only [setInsert]
    split
    · simp
    · rename_i h1
      split
      · simp only [List.mem_cons, ih]
        tauto
      · rename_i h2
        have hxy : x = y := strLt_total x y (by simpa using h1) (by simpa using h2)
        subst hxy
        simp

theorem setInsert_sorted (x : Str) (l : List Str) (h : SetSorted l) :
    SetSorted (setInsert x l) := by
  unfold SetSorted at *
  induction l with
  | nil => simp [setInsert]
  | cons y ys ih =>
    rw [List.pairwise_cons] at h
    simp only [setInsert]
    split
    · rename_i h1
      rw [List.pairwise_cons]
      refine ⟨?_, List.pairwise_cons.2 h⟩
      intro z hz
      rcases List.mem_cons.1 hz with rfl | hz
      · exact h1
      · exact strLt_trans _ _ _ h1 (h.1 z hz)
    · split
      · rename_i h2
        rw [List.pairwise_cons]
        refine ⟨?_, ih h.2⟩
        intro z hz
        rcases (mem_setInsert x ys z).1 hz with rfl | hz
        · exact h2
        · exact h.1 z hz
      · exact List.pairwise_cons.2 h

theorem SetSorted.nodup {l : List Str} (h : SetSorted l) : l.Nodup := by
  unfold SetSorted at h
  refine List.Pairwise.imp ?_ h
  intro a b hab heq
  subst heq
  rw [strLt_irrefl] at hab
  exact absurd hab (by simp)

theorem generatePermutations_sorted (H : Str) : SetSorted (generatePermutations H) := by
  simp only [generatePermutations, List.foldl]
  repeat first
    | apply setInsert_sorted
    | split
  exact List.Pairwise.nil

theorem mem_generatePermutations (H x : Str) :
    x ∈ generatePermutations H ↔ x ∈ candidateList H := by
  simp only [generatePermutations, List.foldl, candidateList]
  simp [mem_setInsert]
  tauto

theorem candidateList_nodup (H : Str) : (candidateList H).Nodup := by
  simp only [candidateList]
  simp [List.Nodup]
  refine ⟨?_, ?_, ?_, ?_⟩ <;> intro h <;> have hl := congrArg List.length h <;>
    simp only [List.length_cons] at hl <;> omega

/-- The set of candidates has ten elements, whatever the host. -/
theorem generatePermutations_length (H : Str) : (generatePermutations H).length = 10 := by
  have hperm : (generatePermutations H).Perm (candidateList H) :=
    (List.perm_ext_iff_of_nodup (generatePermutations_sorted H).nodup (candidateList_nodup H)).2
      (fun x => mem_generatePermutations H x)
  rw [hperm.length_eq]
  rfl

/-- C4. For every host `H`, valid or not, the elements of `generatePermutations H` are
exactly the strings `s ++ v ++ H` with `s` one of `http://`, `https://` and `v` one of the
empty string, `www.`, `blog.`, `shop.`, `test.`; they are pairwise distinct and there are
exactly ten of them. -/
theorem generatePermutations_exact (H : Str) :
    (∀ x, x ∈ generatePermutations H ↔
      ∃ s ∈ ["http://".toList, "https://".toList],
        ∃ v ∈ ["".toList, "www.".toList, "blog.".toList, "shop.".toList, "test.".toList],
          x = s ++ v ++ H) ∧
    (generatePermutations H).Nodup ∧ (generatePermutations H).length = 10 := by
  have hnodup := (generatePermutations_sorted H).nodup
  refine ⟨fun x => ?_, hnodup, ?_⟩
  · rw [mem_generatePermutations]
    simp only [candidateList, List.mem_flatMap, List.mem_map]
    constructor
    · rintro ⟨s, hs, v, hv, rfl⟩
      exact ⟨s, hs, v, hv, rfl⟩
    · rintro ⟨s, hs, v, hv, rfl⟩
      exact ⟨s, hs, v, hv, rfl⟩
  · exact generatePermutations_length H

/-- C5 as stated fails.  The input `http://example.com` passes `isValidURL`, and the
candidate `http://http://example.com` has a scheme again after its scheme and contains
`://` twice; the bare input `example.com/a://b` passes too, and its candidate
`http://example.com/a://b` contains `://` twice. -/
theorem generatePermutations_scheme_twice :
    (isValidURL "http://example.com".toList = true ∧
      "http://http://example.com".toList ∈ generatePermutations "http://example.com".toList ∧
      hasScheme ("http://http://example.com".toList.drop 7) = true ∧
      countOcc "://".toList "http://http://example.com".toList = 2) ∧
    (isValidURL "example.com/a://b".toList = true ∧
      hasScheme "example.com/a://b".toList = false ∧
      "http://example.com/a://b".toList ∈ generatePermutations "example.com/a://b".toList ∧
      countOcc "://".toList "http://example.com/a://b".toList = 2) := by
  decide

/-- C5, amended. For every input `H` that does not begin with a scheme, every candidate
of `generatePermutations H` is `s ++ v ++ H` for a scheme `s` and a subdomain part `v`; it
begins with exactly one of `http://`, `https://`, what follows that scheme does not begin
with a scheme, and the candidate contains `://` once more than `H` does, so exactly once
when `H` does not contain it. -/
theorem generatePermutations_bare (H : Str) (hbare : hasScheme H = false) :
    ∀ c ∈ generatePermutations H,
      ∃ s ∈ ["http://".toList, "https://".toList],
        ∃ v ∈ ["".toList, "www.".toList, "blog.".toList, "shop.".toList, "test.".toList],
          c = s ++ v ++ H ∧
          (∀ s' ∈ ["http://".toList, "https://".toList], s' <+: c ↔ s' = s) ∧
          hasScheme (v ++ H) = false ∧
          countOcc "://".toList c = 1 + countOcc "://".toList H ∧
          (countOcc "://".toList H = 0 → countOcc "://".toList c = 1) := by
  intro c hc
  rw [mem_generatePermutations] at hc
  simp only [candidateList, List.mem_flatMap, List.mem_map] at hc
  obtain ⟨s, hs, v, hv, rfl⟩ := hc
  refine ⟨s, hs, v, hv, rfl, ?_, ?_, ?_, ?_⟩
  · simp only [List.mem_cons, List.mem_singleton, List.not_mem_nil, or_false] at hs hv
    rcases hs with rfl | rfl <;> rcases hv with rfl | rfl | rfl | rfl | rfl <;>
      simp [List.cons_prefix_cons]
  · simp only [List.mem_cons, List.mem_singleton, List.not_mem_nil, or_false] at hv
    rcases hv with rfl | rfl | rfl | rfl | rfl
    · simpa using hbare
    all_goals simp [hasScheme, List.isPrefixOf]
  · simp only [List.mem_cons, List.mem_singleton, List.not_mem_nil, or_false] at hs hv
    rcases hs with rfl | rfl <;> rcases hv with rfl | rfl | rfl | rfl | rfl <;>
      simp [countOcc, List.isPrefixOf]
  · intro h0
    simp only [List.mem_cons, List.mem_singleton, List.not_mem_nil, or_false] at hs hv
    rcases hs with rfl | rfl <;> rcases hv with rfl | rfl | rfl | rfl | rfl <;>
      simp [countOcc, List.isPrefixOf] <;> simp at h0 <;> omega

/-- C5 amended, at the concrete input `example.com`. -/
theorem generatePermutations_bare_witness :
    hasScheme "example.com".toList = false ∧
    ∀ c ∈ generatePermutations "example.com".toList,
      ∃ s ∈ ["http://".toList, "https://".toList],
        ∃ v ∈ ["".toList, "www.".toList, "blog.".toList, "shop.".toList, "test.".toList],
          c = s ++ v ++ "example.com".toList ∧
          (∀ s' ∈ ["http://".toList, "https://".toList], s' <+: c ↔ s' = s) ∧
          hasScheme (v ++ "example.com".toList) = false ∧
          countOcc "://".toList c = 1 + countOcc "://".toList "example.com".toList ∧
          (countOcc "://".toList "example.com".toList = 0 → countOcc "://".toList c = 1) :=
  ⟨by decide, generatePermutations_bare "example.com".toList (by decide)⟩

theorem isPrefixOf_append (a b s : Str) :
    (a ++ b).isPrefixOf s = (a.isPrefixOf s && b.isPrefixOf (s.drop a.length)) := by
  induction a generalizing s with
  | nil => simp
  | cons c a ih =>
    cases s with
    | nil => simp [List.isPrefixOf]
    | cons d s => simp [List.isPrefixOf, ih, Bool.and_assoc]

theorem exec_lit (w s : Str) (k : Str → Option Str) :
    exec (lit w) s k = if w.isPrefixOf s then k (s.drop w.length) else none := by
  induction w generalizing s with
  | nil => simp [lit, exec]
  | cons c w ih =>
    cases s with
    | nil => simp [lit, exec, chr, List.isPrefixOf]
    | cons d s =>
      simp only [lit, exec, chr, ih, List.isPrefixOf, List.length_cons, List.drop_succ_cons,
        Bool.and_eq_true, beq_iff_eq]
      by_cases hdc : d = c
      · subst hdc
        simp
      · have hcd : ¬ c = d := fun h => hdc h.symm
        simp [hdc, hcd]

theorem exec_seq (a b : Regex) (s : Str) (k : Str → Option Str) :
    exec (seq a b) s k = exec a s (fun s' => exec b s' k) := rfl

theorem exec_alt (a b : Regex) (s : Str) (k : Str → Option Str) :
    exec (alt a b) s k = (match exec a s k with | some r => some r | none => exec b s k) := rfl

theorem exec_cls (p : Char → Bool) (s : Str) (k : Str → Option Str) :
    exec (cls p) s k = (match s with | [] => none | c :: t => if p c then k t else none) := by
  cases s <;> rfl

theorem exec_star (a : Regex) (s : Str) (k : Str → Option Str) :
    exec (star a) s k = starLoop (fun s' k' => exec a s' k') s.length s k := rfl

theorem starLoop_cls (p : Char → Bool) (step : Str → (Str → Option Str) → Option Str)
    (hstep : ∀ s k, step s k = (match s with | [] => none | c :: t => if p c then k t else none)) :
    ∀ (n : Nat) (s : Str), s.length ≤ n → starLoop step n s some = some (s.dropWhile p) := by
  intro n
  induction n with
  | zero =>
    intro s hs
    have : s = [] := List.length_eq_zero.1 (Nat.le_zero.1 hs)
    subst this
    rfl
  | succ n ih =>
    intro s hs
    cases s with
    | nil => simp [starLoop, hstep]
    | cons c t =>
      simp only [starLoop, hstep]
      by_cases hp : p c = true
      · have ht : t.length ≤ n := by simpa using hs
        simp [hp, ih t ht]
      · simp [hp]

theorem exec_plus_linkChar (s : Str) : exec (plus (cls isLinkChar)) s some = linkRun s := by
  unfold plus
  rw [exec_seq, exec_cls]
  cases s with
  | nil => rfl
  | cons c t =>
    simp only [linkRun, exec_star]
    split
    · exact starLoop_cls isLinkChar _ (fun s k => exec_cls isLinkChar s k) t.length t (le_refl _)
    · rfl

theorem not_both_schemes (s : Str) :
    ("http://".toList.isPrefixOf s && "https://".toList.isPrefixOf s) = false := by
  rcases s with _ | ⟨c1, _ | ⟨c2, _ | ⟨c3, _ | ⟨c4, _ | ⟨c5, s⟩⟩⟩⟩⟩ <;>
    simp [List.isPrefixOf]
  intro _ _ _ _ h5 _ _ _ _ _ h5'
  rw [← h5] at h5'
  exact absurd h5' (by decide)

theorem alt_branches (A B C D : Bool) (L7 L8 : Option Str)
    (h : (A && B && (C && D)) = false) :
    (match (if A = true then (if B = true then L7 else none) else none) with
      | some r => some r
      | none => if C = true then (if D = true then L8 else none) else none) =
    if (A && B) = true then L7 else if (C && D) = true then L8 else none := by
  cases A <;> cases B <;> cases C <;> cases D <;> cases L7 <;> simp at h ⊢

theorem exec_lit_drop (w : Str) (n : Nat) (hn : w.length = n) (s : Str)
    (k : Str → Option Str) :
    exec (lit w) s k = if w.isPrefixOf s then k (s.drop n) else none :=
  hn ▸ exec_lit w s k

/-- The backtracking matcher on the link pattern finds the match read off the pattern. -/
theorem exec_linkRegex (s : Str) : exec linkRegex s some = linkAt s := by
  unfold linkRegex linkAt
  rw [exec_seq, exec_alt, exec_lit_drop "http".toList 4 rfl, exec_lit_drop "https".toList 5 rfl]
  simp only [exec_seq, exec_lit_drop "://".toList 3 rfl, exec_plus_linkChar, List.drop_drop]
  have h1 : "http://".toList.isPrefixOf s =
      ("http".toList.isPrefixOf s && "://".toList.isPrefixOf (s.drop 4)) :=
    isPrefixOf_append "http".toList "://".toList s
  have h2 : "https://".toList.isPrefixOf s =
      ("https".toList.isPrefixOf s && "://".toList.isPrefixOf (s.drop 5)) :=
    isPrefixOf_append "https".toList "://".toList s
  have h3 := not_both_schemes s
  rw [h1, h2] at h3 ⊢
  exact alt_branches _ _ _ _ _ _ h3

theorem isLinkChar_iff (c : Char) : isLinkChar c = true ↔ (isSpace c = false ∧ c ≠ '"') := by
  simp [isLinkChar]

theorem isLinkChar_false_iff (c : Char) :
    isLinkChar c = false ↔ (isSpace c = true ∨ c = '"') := by
  cases h : isSpace c <;> simp [isLinkChar, h]

theorem dropWhile_endsLink (t : Str) : EndsLink (t.dropWhile isLinkChar) := by
  intro c r h
  induction t with
  | nil => simp at h
  | cons d t ih =>
    rw [List.dropWhile_cons] at h
    split at h
    · exact ih h
    · rename_i hd
      simp only [List.cons.injEq] at h
      rw [← h.1]
      exact (isLinkChar_false_iff d).1 (by simpa using hd)

theorem linkRun_some {t rest : Str} (h : linkRun t = some rest) :
    ∃ w : Str, w ≠ [] ∧ (∀ c ∈ w, isSpace c = false ∧ c ≠ '"') ∧ t = w ++ rest ∧
      EndsLink rest := by
  cases t with
  | nil => simp [linkRun] at h
  | cons c t =>
    simp only [linkRun] at h
    split at h
    · rename_i hc
      simp only [Option.some.injEq] at h
      subst h
      refine ⟨c :: t.takeWhile isLinkChar, by simp, ?_, by simp, dropWhile_endsLink t⟩
      intro d hd
      rcases List.mem_cons.1 hd with rfl | hd
      · exact (isLinkChar_iff _).1 hc
      · exact (isLinkChar_iff _).1 (List.mem_takeWhile_imp hd)
    · exact absurd h (by simp)

theorem linkRun_append {w rest : Str} (hne : w ≠ [])
    (hw : ∀ c ∈ w, isSpace c = false ∧ c ≠ '"') (hrest : EndsLink rest) :
    linkRun (w ++ rest) = some rest := by
  have hall : ∀ c ∈ w, isLinkChar c = true := fun c hc => (isLinkChar_iff c).2 (hw c hc)
  have hdrop : ∀ (v : Str), (∀ c ∈ v, isLinkChar c = true) →
      (v ++ rest).dropWhile isLinkChar = rest := by
    intro v hv
    rw [List.dropWhile_append_of_pos hv]
    cases rest with
    | nil => rfl
    | cons c r =>
      have : isLinkChar c = false := (isLinkChar_false_iff c).2 (hrest c r rfl)
      simp [List.dropWhile_cons, this]
  cases w with
  | nil => exact absurd rfl hne
  | cons c w =>
    simp only [List.cons_append, linkRun, hall c (by simp), if_true]
    rw [hdrop w (fun d hd => hall d (by simp [hd]))]

theorem drop_of_isPrefixOf {p s : Str} (h : p.isPrefixOf s = true) :
    s = p ++ s.drop p.length :=
  (List.prefix_iff_eq_append.1 (List.isPrefixOf_iff_prefix.1 h)).symm

/-- A match of the link pattern at the front of a text is a URL-shaped string, and what
follows it does not continue it. -/
theorem linkAt_some {s rest : Str} (h : linkAt s = some rest) :
    ∃ u : Str, UrlShaped u ∧ s = u ++ rest ∧ EndsLink rest := by
  unfold linkAt at h
  split at h
  · rename_i hp
    obtain ⟨w, hne, hw, ht, hend⟩ := linkRun_some h
    have hs := drop_of_isPrefixOf hp
    exact ⟨"http://".toList ++ w, ⟨_, w, Or.inl rfl, hne, hw, rfl⟩,
      by rw [List.append_assoc, ← ht]; exact hs, hend⟩
  · split at h
    · rename_i hp
      obtain ⟨w, hne, hw, ht, hend⟩ := linkRun_some h
      have hs := drop_of_isPrefixOf hp
      exact ⟨"https://".toList ++ w, ⟨_, w, Or.inr rfl, hne, hw, rfl⟩,
        by rw [List.append_assoc, ← ht]; exact hs, hend⟩
    · exact absurd h (by simp)

/-- A URL-shaped string followed by nothing, white space or a double quote is the match
of the link pattern at its front. -/
theorem linkAt_of_urlShaped {u rest : Str} (hu : UrlShaped u) (hrest : EndsLink rest) :
    linkAt (u ++ rest) = some rest := by
  obtain ⟨scheme, w, hs, hne, hw, rfl⟩ := hu
  have hrun := linkRun_append hne hw hrest
  unfold linkAt
  rcases hs with rfl | rfl
  · have hp : "http://".toList.isPrefixOf ("http://".toList ++ w ++ rest) = true := by
      rw [List.append_assoc]
      exact List.isPrefixOf_iff_prefix.2 (List.prefix_append _ _)
    rw [if_pos hp]
    have : ("http://".toList ++ w ++ rest).drop 7 = w ++ rest := by
      rw [List.append_assoc]
      rfl
    rw [this, hrun]
  · have hn : "http://".toList.isPrefixOf ("https://".toList ++ w ++ rest) = false := by
      have := not_both_schemes ("https://".toList ++ w ++ rest)
      have hp : "https://".toList.isPrefixOf ("https://".toList ++ w ++ rest) = true := by
        rw [List.append_assoc]
        exact List.isPrefixOf_iff_prefix.2 (List.prefix_append _ _)
      rw [hp, Bool.and_true] at this
      exact this
    have hp : "https://".toList.isPrefixOf ("https://".toList ++ w ++ rest) = true := by
      rw [List.append_assoc]
      exact List.isPrefixOf_iff_prefix.2 (List.prefix_append _ _)
    rw [hn, hp]
    simp only [Bool.false_eq_true, if_false, if_true]
    have : ("https://".toList ++ w ++ rest).drop 8 = w ++ rest := by
      rw [List.append_assoc]
      rfl
    rw [this, hrun]

theorem linkAt_space (c : Char) (t : Str) (hc : isSpace c = true) : linkAt (c :: t) = none := by
  have hne : c ≠ 'h' := by
    rintro rfl
    exact absurd hc (by decide)
  have : ('h' == c) = false := by
    simpa using fun h => hne h.symm
  simp [linkAt, List.isPrefixOf, this]

theorem regex_search_link_nil : regex_search linkRegex [] = none := by
  simp only [regex_search, exec_linkRegex]
  rfl

theorem regex_search_link_cons (c : Char) (t : Str) :
    regex_search linkRegex (c :: t) =
      match linkAt (c :: t) with
      | some rest => some ⟨(c :: t).take ((c :: t).length - rest.length), rest⟩
      | none => regex_search linkRegex t := by
  simp only [regex_search, exec_linkRegex]

theorem take_length_sub (u rest : Str) :
    (u ++ rest).take ((u ++ rest).length - rest.length) = u := by
  simp

/-- What a successful search for the link pattern returns. -/
theorem regex_search_link_some {s : Str} {m : SearchResult}
    (h : regex_search linkRegex s = some m) :
    ∃ pre : Str, s = pre ++ m.whole ++ m.suffix ∧ UrlShaped m.whole ∧ EndsLink m.suffix := by
  induction s with
  | nil => rw [regex_search_link_nil] at h; exact absurd h (by simp)
  | cons c t ih =>
    rw [regex_search_link_cons] at h
    split at h
    · rename_i rest hrest
      obtain ⟨u, hu, hs, hend⟩ := linkAt_some hrest
      simp only [Option.some.injEq] at h
      subst h
      refine ⟨[], ?_, ?_, hend⟩
      · simp only [List.nil_append]
        rw [hs, take_length_sub]
      · simp only
        rw [hs, take_length_sub]
        exact hu
    · obtain ⟨pre, hs, hu, hend⟩ := ih h
      exact ⟨c :: pre, by simp [hs], hu, hend⟩

/-- A search for the link pattern fails only on a text without a match at any position. -/
theorem regex_search_link_none {s : Str} (h : regex_search linkRegex s = none) :
    ∀ pre post : Str, s = pre ++ post → linkAt post = none := by
  induction s with
  | nil =>
    intro pre post hs
    have : post = [] := by
      have := congrArg List.length hs
      simp at this
      exact List.length_eq_zero.1 (by omega)
    subst this
    rfl
  | cons c t ih =>
    rw [regex_search_link_cons] at h
    split at h
    · exact absurd h (by simp)
    · rename_i hnone
      intro pre post hs
      cases pre with
      | nil =>
        simp only [List.nil_append] at hs
        rw [← hs]
        exact hnone
      | cons d pre =>
        simp only [List.cons_append, List.cons.injEq] at hs
        exact ih h pre post hs.2

theorem UrlShaped.ne_nil {u : Str} (hu : UrlShaped u) : u ≠ [] := by
  obtain ⟨scheme, w, hs, hne, _, rfl⟩ := hu
  rcases hs with rfl | rfl <;> simp

theorem UrlShaped.length_pos {u : Str} (hu : UrlShaped u) : 0 < u.length :=
  List.length_pos.2 hu.ne_nil

theorem extractLinksLoop_succ (n : Nat) (s : Str) :
    extractLinksLoop (n + 1) s =
      match regex_search linkRegex s with
      | none => some []
      | some m =>
        match extractLinksLoop n m.suffix with
        | some links => some (m.whole :: links)
        | none => none := rfl

/-- The loop of `extractLinks`, with more rounds allowed than the text has characters,
ends, and its result is a sequence of occurrences of URL-shaped strings in the text, each
one maximal, each one after the end of the one before. -/
theorem extractLinksLoop_spec : ∀ (n : Nat) (s : Str), s.length < n →
    ∃ occs : List (Nat × Str), extractLinksLoop n s = some (occs.map Prod.snd) ∧
      (∀ p ∈ occs, p.2 <+: s.drop p.1 ∧ UrlShaped p.2 ∧ EndsLink (s.drop (p.1 + p.2.length))) ∧
      occs.Pairwise (fun p q => p.1 < q.1 ∧ p.1 + p.2.length ≤ q.1) := by
  intro n
  induction n with
  | zero => intro s hs; exact absurd hs (by omega)
  | succ n ih =>
    intro s hs
    rw [extractLinksLoop_succ]
    cases hsearch : regex_search linkRegex s with
    | none => exact ⟨[], rfl, by simp, List.Pairwise.nil⟩
    | some m =>
      obtain ⟨pre, hsplit, hshape, hend⟩ := regex_search_link_some hsearch
      have hpos := hshape.length_pos
      have hlen : s.length = pre.length + m.whole.length + m.suffix.length := by
        rw [hsplit]
        simp only [List.length_append]
      obtain ⟨occs, hloop, hocc, hpair⟩ := ih m.suffix (by omega)
      have hdrop : ∀ k, s.drop (k + (pre.length + m.whole.length)) = m.suffix.drop k := by
        intro k
        have h1 : s.drop (pre.length + m.whole.length) = m.suffix := by
          rw [hsplit]
          have : pre.length + m.whole.length = (pre ++ m.whole).length := by simp
          rw [this, List.drop_left]
        rw [Nat.add_comm, ← List.drop_drop, h1]
      refine ⟨(pre.length, m.whole) ::
        occs.map (fun p => (p.1 + (pre.length + m.whole.length), p.2)), ?_, ?_, ?_⟩
      · simp only [hloop, List.map_cons, List.map_map]
        congr 2
      · intro p hp
        rcases List.mem_cons.1 hp with rfl | hp
        · refine ⟨?_, hshape, ?_⟩
          · simp only
            rw [hsplit, List.append_assoc, List.drop_left]
            exact List.prefix_append _ _
          · simp only
            have := hdrop 0
            simp only [Nat.zero_add, List.drop_zero] at this
            rw [this]
            exact hend
        · obtain ⟨q, hq, rfl⟩ := List.mem_map.1 hp
          obtain ⟨h1, h2, h3⟩ := hocc q hq
          refine ⟨?_, h2, ?_⟩
          · simp only
            rw [hdrop]
            exact h1
          · simp only
            have : q.1 + (pre.length + m.whole.length) + q.2.length =
                (q.1 + q.2.length) + (pre.length + m.whole.length) := by omega
            rw [this, hdrop]
            exact h3
      · rw [List.pairwise_cons]
        refine ⟨?_, ?_⟩
        · intro p hp
          obtain ⟨q, _, rfl⟩ := List.mem_map.1 hp
          simp only
          omega
        · rw [List.pairwise_map]
          refine List.Pairwise.imp ?_ hpair
          intro a b hab
          simp only
          omega

/-- `extractLinks` returns on every input. -/
theorem extractLinks_total (body : Str) : ∃ links, extractLinks body = some links := by
  obtain ⟨occs, hloop, _⟩ :=
    extractLinksLoop_spec (body.length + 1) body (Nat.lt_succ_self _)
  exact ⟨occs.map Prod.snd, hloop⟩

/-- C7. For every body, `extractLinks` returns, and its entries are occurrences in the
body at strictly increasing positions, each after the end of the one before; each entry is
`http://` or `https://` followed by at least one character, with no white space and no
double quote after the scheme; and each is maximal: what follows it in the body is nothing,
white space or a double quote. -/
theorem extractLinks_shape (body : Str) :
    ∃ links : List Str, extractLinks body = some links ∧
      ∃ occs : List (Nat × Str), occs.map Prod.snd = links ∧
        (∀ p ∈ occs, p.2 <+: body.drop p.1 ∧ UrlShaped p.2 ∧
          EndsLink (body.drop (p.1 + p.2.length))) ∧
        occs.Pairwise (fun p q => p.1 < q.1 ∧ p.1 + p.2.length ≤ q.1) := by
  obtain ⟨occs, hloop, hocc, hpair⟩ :=
    extractLinksLoop_spec (body.length + 1) body (Nat.lt_succ_self _)
  exact ⟨occs.map Prod.snd, hloop, occs, rfl, hocc, hpair⟩

theorem regex_search_link_skip (sp x : Str) (hsp : ∀ c ∈ sp, isSpace c = true) :
    regex_search linkRegex (sp ++ x) = regex_search linkRegex x := by
  induction sp with
  | nil => rfl
  | cons c sp ih =>
    rw [List.cons_append, regex_search_link_cons, linkAt_space c _ (hsp c (by simp))]
    exact ih (fun d hd => hsp d (by simp [hd]))

theorem extractLinksLoop_skip (n : Nat) (sp x : Str) (hsp : ∀ c ∈ sp, isSpace c = true) :
    extractLinksLoop n (sp ++ x) = extractLinksLoop n x := by
  cases n with
  | zero => rfl
  | succ n => rw [extractLinksLoop_succ, extractLinksLoop_succ, regex_search_link_skip sp x hsp]

theorem endsLink_separated_tail (rest : List (Str × Str))
    (hrest : ∀ p ∈ rest, p.1 ≠ [] ∧ (∀ c ∈ p.1, isSpace c = true) ∧ UrlShaped p.2) :
    EndsLink (rest.map (fun p => p.1 ++ p.2)).flatten := by
  intro c r h
  cases rest with
  | nil => simp at h
  | cons p rest =>
    obtain ⟨hne, hsp, _⟩ := hrest p (by simp)
    cases hp : p.1 with
    | nil => exact absurd hp hne
    | cons d sp =>
      simp only [List.map_cons, List.flatten_cons, hp, List.cons_append, List.cons.injEq] at h
      left
      rw [← h.1]
      exact hsp d (by simp [hp])

theorem extractLinksLoop_separated : ∀ (rest : List (Str × Str)) (u : Str) (n : Nat),
    UrlShaped u →
    (∀ p ∈ rest, p.1 ≠ [] ∧ (∀ c ∈ p.1, isSpace c = true) ∧ UrlShaped p.2) →
    (separatedBody u rest).length < n →
    extractLinksLoop n (separatedBody u rest) = some (u :: rest.map Prod.snd) := by
  intro rest
  induction rest with
  | nil =>
    intro u n hu _ hn
    have hpos := hu.length_pos
    simp only [separatedBody, List.map_nil, List.flatten_nil, List.append_nil] at hn ⊢
    obtain ⟨n, rfl⟩ : ∃ k, n = k + 1 := ⟨n - 1, by omega⟩
    obtain ⟨n, rfl⟩ : ∃ k, n = k + 1 := ⟨n - 1, by omega⟩
    rw [extractLinksLoop_succ]
    obtain ⟨c, t, hct⟩ : ∃ c t, u = c :: t := by
      cases u with
      | nil => exact absurd rfl hu.ne_nil
      | cons c t => exact ⟨c, t, rfl⟩
    have hat : linkAt (u ++ []) = some [] := linkAt_of_urlShaped hu (by intro c r h; simp at h)
    rw [List.append_nil] at hat
    have hsearch : regex_search linkRegex u = some ⟨u, []⟩ := by
      rw [hct, regex_search_link_cons, ← hct, hat]
      simp
    rw [hsearch]
    simp only
    rw [extractLinksLoop_succ, regex_search_link_nil]
  | cons p rest ih =>
    intro u n hu hrest hn
    have hpos := hu.length_pos
    obtain ⟨hne, hsp, hu2⟩ := hrest p (by simp)
    have hrest' : ∀ q ∈ rest, q.1 ≠ [] ∧ (∀ c ∈ q.1, isSpace c = true) ∧ UrlShaped q.2 :=
      fun q hq => hrest q (by simp [hq])
    have hbody : separatedBody u (p :: rest) = u ++ (p.1 ++ separatedBody p.2 rest) := by
      simp [separatedBody]
    have hend : EndsLink (p.1 ++ separatedBody p.2 rest) := by
      have := endsLink_separated_tail (p :: rest) hrest
      simpa [separatedBody] using this
    rw [hbody] at hn ⊢
    obtain ⟨n, rfl⟩ : ∃ k, n = k + 1 := ⟨n - 1, by omega⟩
    rw [extractLinksLoop_succ]
    obtain ⟨c, t, hct⟩ : ∃ c t, u = c :: t := by
      cases u with
      | nil => exact absurd rfl hu.ne_nil
      | cons c t => exact ⟨c, t, rfl⟩
    have hat := linkAt_of_urlShaped hu hend
    have hsearch : regex_search linkRegex (u ++ (p.1 ++ separatedBody p.2 rest)) =
        some ⟨u, p.1 ++ separatedBody p.2 rest⟩ := by
      have hcons : u ++ (p.1 ++ separatedBody p.2 rest) =
          c :: (t ++ (p.1 ++ separatedBody p.2 rest)) := by rw [hct]; rfl
      rw [hcons, regex_search_link_cons, ← hcons, hat]
      simp only [take_length_sub]
    rw [hsearch]
    simp only
    rw [extractLinksLoop_skip n p.1 _ hsp, ih p.2 n hu2 hrest' (by
      simp only [List.length_append] at hn
      omega)]
    rfl

/-- C6. On a body without a URL-shaped substring `extractLinks` returns the empty
sequence; on a body made of URL-shaped strings `u1 .. uN` with one or more white space
characters between each two it returns exactly `[u1, .., uN]`. -/
theorem extractLinks_counts :
    (∀ body : Str, (¬ ∃ u : Str, UrlShaped u ∧ u <:+: body) → extractLinks body = some []) ∧
    extractLinks [] = some [] ∧
    (∀ (u : Str) (rest : List (Str × Str)), UrlShaped u →
      (∀ p ∈ rest, p.1 ≠ [] ∧ (∀ c ∈ p.1, isSpace c = true) ∧ UrlShaped p.2) →
      extractLinks (separatedBody u rest) = some (u :: rest.map Prod.snd)) := by
  refine ⟨?_, rfl, ?_⟩
  · intro body hno
    unfold extractLinks
    rw [extractLinksLoop_succ]
    cases hsearch : regex_search linkRegex body with
    | none => rfl
    | some m =>
      obtain ⟨pre, hsplit, hshape, _⟩ := regex_search_link_some hsearch
      exact absurd ⟨m.whole, hshape, ⟨pre, m.suffix, hsplit.symm⟩⟩ hno
  · intro u rest hu hrest
    exact extractLinksLoop_separated rest u _ hu hrest (Nat.lt_succ_self _)

theorem UrlShaped.colon_mem {u : Str} (hu : UrlShaped u) : ':' ∈ u := by
  obtain ⟨scheme, w, hs, _, _, rfl⟩ := hu
  rcases hs with rfl | rfl <;> simp

/-- C6, at concrete inputs: a body without a link, and a body of two links with a space
and a line break between them. -/
theorem extractLinks_counts_witness :
    extractLinks "plain text".toList = some [] ∧
    extractLinks (separatedBody "http://a.b".toList [(" \n".toList, "https://c.d/e".toList)]) =
      some ["http://a.b".toList, "https://c.d/e".toList] :=
  ⟨extractLinks_counts.1 "plain text".toList (by
      rintro ⟨u, hu, hin⟩
      have hmem : ':' ∈ "plain text".toList := hin.subset hu.colon_mem
      exact absurd hmem (by decide)),
   extractLinks_counts.2.2 "http://a.b".toList [(" \n".toList, "https://c.d/e".toList)]
      ⟨"http://".toList, "a.b".toList, Or.inl rfl, by decide, by decide, rfl⟩
      (by
        intro p hp
        simp only [List.mem_singleton] at hp
        subst hp
        exact ⟨by decide, by decide,
          ⟨"https://".toList, "c.d/e".toList, Or.inr rfl, by decide, by decide, rfl⟩⟩)⟩

theorem push_loop_eq (env : Env) (links found : List Str) :
    links.foldl (fun found link => if checkLink env link then found ++ [link] else found) found
      = found ++ links.filter (checkLink env) := by
  induction links generalizing found with
  | nil => simp
  | cons l links ih =>
    simp only [List.foldl_cons, ih, List.filter_cons]
    split <;> simp

/-- The body of a worker appends the worker's contribution and always comes to its end. -/
theorem workerBody_eq (env : Env) (targetUrl : Str) (found : List Str) :
    workerBody env targetUrl found = some (found ++ workerContribution env targetUrl) := by
  unfold workerBody workerContribution
  cases hget : env.get targetUrl with
  | none => simp
  | some rb =>
    obtain ⟨res, readBuffer⟩ := rb
    simp only
    split
    · obtain ⟨links, hlinks⟩ := extractLinks_total readBuffer
      simp only [hlinks, push_loop_eq]
    · simp

theorem set_eq_take_append (l : List (Str × WorkerPc)) (i : Nat) (a b : Str × WorkerPc)
    (h : l.get? i = some a) :
    l = l.take i ++ a :: l.drop (i + 1) ∧ l.set i b = l.take i ++ b :: l.drop (i + 1) := by
  induction l generalizing i with
  | nil => simp at h
  | cons x l ih =>
    cases i with
    | zero =>
      simp only [List.get?_cons_zero, Option.some.injEq] at h
      subst h
      simp
    | succ i =>
      simp only [List.get?_cons_succ] at h
      obtain ⟨h1, h2⟩ := ih i h
      constructor
      · simp only [List.take_succ_cons, List.drop_succ_cons, List.cons_append]
        rw [← h1]
      · simp only [List.set_cons_succ, List.take_succ_cons, List.drop_succ_cons,
          List.cons_append]
        rw [h2]

theorem map_fst_set (l : List (Str × WorkerPc)) (i : Nat) (t : Str) (pc pc' : WorkerPc)
    (h : l.get? i = some (t, pc)) : (l.set i (t, pc')).map Prod.fst = l.map Prod.fst := by
  obtain ⟨h1, h2⟩ := set_eq_take_append l i (t, pc) (t, pc') h
  rw [h2]
  conv_rhs => rw [h1]
  simp

theorem completedTargets_set_same (l : List (Str × WorkerPc)) (i : Nat) (t : Str)
    (pc pc' : WorkerPc) (h : l.get? i = some (t, pc))
    (hsame : pastCritical (t, pc') = pastCritical (t, pc)) :
    completedTargets (l.set i (t, pc')) = completedTargets l := by
  obtain ⟨h1, h2⟩ := set_eq_take_append l i (t, pc) (t, pc') h
  unfold completedTargets
  rw [h2]
  conv_rhs => rw [h1]
  simp only [List.filter_append, List.filter_cons, hsame, List.map_append]
  cases pastCritical (t, pc) <;> simp

theorem completedTargets_set_new (l : List (Str × WorkerPc)) (i : Nat) (t : Str)
    (pc pc' : WorkerPc) (h : l.get? i = some (t, pc))
    (hold : pastCritical (t, pc) = false) (hnew : pastCritical (t, pc') = true) :
    (completedTargets (l.set i (t, pc'))).Perm (completedTargets l ++ [t]) := by
  obtain ⟨h1, h2⟩ := set_eq_take_append l i (t, pc) (t, pc') h
  unfold completedTargets
  rw [h2]
  conv_rhs => rw [h1]
  simp only [List.filter_append, List.filter_cons, hold, hnew, List.map_append, if_true,
    List.map_cons, Bool.false_eq_true, if_false]
  rw [List.append_assoc]
  exact List.Perm.append_left _ (List.perm_append_singleton _ _).symm

theorem crawlInit_inv (env : Env) (url : Str) : CrawlInv env url (crawlInit url) where
  targets := by simp [crawlInit]
  found := ⟨[], by simp [crawlInit], by simp [crawlInit, completedTargets]⟩
  joined := by intro j h; simp [crawlInit] at h
  finished := by intro h; simp [crawlInit] at h
  notDisplayed := by intro _; rfl

theorem crawlStep_inv (env : Env) (url : Str) (maxThreads : Int) (st st' : CrawlState)
    (hinv : CrawlInv env url st) (h : crawlStep maxThreads st = some st') :
    CrawlInv env url st' := by
  unfold crawlStep at h
  split at h
  · -- gate
    rename_i hc
    split at h
    · rename_i hp
      simp only [Option.some.injEq] at h
      subst h
      exact { targets := hinv.targets, found := hinv.found,
              joined := by
                intro j hj
                simp only [CoordPc.joining.injEq] at hj
                subst hj
                exact ⟨hp, fun i hi => absurd hi (by omega)⟩,
              finished := by intro hd; simp at hd,
              notDisplayed := fun _ => hinv.notDisplayed (by simp [hc]) }
    · split at h <;>
      · simp only [Option.some.injEq] at h
        subst h
        exact { targets := hinv.targets, found := hinv.found,
                joined := by intro j hj; simp at hj,
                finished := by intro hd; simp at hd,
                notDisplayed := fun _ => hinv.notDisplayed (by simp [hc]) }
  · -- yielding
    rename_i hc
    simp only [Option.some.injEq] at h
    subst h
    exact { targets := hinv.targets, found := hinv.found,
            joined := by intro j hj; simp at hj,
            finished := by intro hd; simp at hd,
            notDisplayed := fun _ => hinv.notDisplayed (by simp [hc]) }
  · -- spawning
    rename_i hc
    split at h
    · exact absurd h (by simp)
    · rename_i targetUrl rest hp
      simp only [Option.some.injEq] at h
      subst h
      exact { targets := by
                have := hinv.targets
                rw [hp] at this
                simpa using this,
              found := by
                obtain ⟨order, h1, h2⟩ := hinv.found
                refine ⟨order, h1, ?_⟩
                simpa [completedTargets, pastCritical] using h2,
              joined := by intro j hj; simp at hj,
              finished := by intro hd; simp at hd,
              notDisplayed := fun _ => hinv.notDisplayed (by simp [hc]) }
  · -- joining
    rename_i j hc
    obtain ⟨hpend, hjoined⟩ := hinv.joined j hc
    split at h
    · rename_i t pc hget
      split at h
      · rename_i hpc
        simp only [Option.some.injEq] at h
        subst h
        exact { targets := hinv.targets, found := hinv.found,
                joined := by
                  intro j' hj'
                  simp only [CoordPc.joining.injEq] at hj'
                  subst hj'
                  refine ⟨hpend, fun i hi => ?_⟩
                  rcases Nat.lt_succ_iff_lt_or_eq.1 hi with hlt | rfl
                  · exact hjoined i hlt
                  · exact ⟨t, by rw [hget, hpc]⟩,
                finished := by intro hd; simp at hd,
                notDisplayed := fun _ => hinv.notDisplayed (by simp [hc]) }
      · exact absurd h (by simp)
    · rename_i hget
      simp only [Option.some.injEq] at h
      subst h
      exact { targets := hinv.targets, found := hinv.found,
              joined := by intro j' hj'; simp at hj',
              finished := by
                intro _
                refine ⟨hpend, ?_, rfl⟩
                intro w hw
                have hw' : w ∈ st.workers := hw
                obtain ⟨i, hi, hwi⟩ := List.getElem_of_mem hw'
                have hij : i < j := by
                  by_contra hge
                  have : st.workers.get? j ≠ none := by
                    rw [List.get?_eq_getElem?]
                    simp only [ne_eq, List.getElem?_eq_none_iff, not_le]
                    omega
                  exact this hget
                obtain ⟨t, ht⟩ := hjoined i hij
                rw [List.get?_eq_getElem?, List.getElem?_eq_getElem hi, hwi] at ht
                simp only [Option.some.injEq] at ht
                rw [ht],
              notDisplayed := by intro hd; simp at hd }
  · exact absurd h (by simp)

theorem workerStep_inv (env : Env) (url : Str) (maxThreads : Int) (st st' : CrawlState)
    (i : Nat) (hinv : CrawlInv env url st) (h : step env maxThreads st (.worker i) = some st') :
    CrawlInv env url st' := by
  simp only [step] at h
  split at h
  · exact absurd h (by simp)
  · rename_i targetUrl pc hget
    have hnotdone : st.coord ≠ .done ∨ pc = .finished := by
      by_cases hd : st.coord = .done
      · right
        have hmem : (targetUrl, pc) ∈ st.workers := List.get?_mem hget
        exact (hinv.finished hd).2.1 _ hmem
      · exact Or.inl hd
    cases pc with
    | created =>
      simp only [worker, Option.some.injEq] at h
      subst h
      have hd : st.coord ≠ .done := by
        rcases hnotdone with h | h
        · exact h
        · exact absurd h (by simp)
      exact { targets := by
                simp only [map_fst_set _ _ _ _ _ hget]
                exact hinv.targets,
              found := by
                obtain ⟨order, h1, h2⟩ := hinv.found
                refine ⟨order, h1, ?_⟩
                show order.Perm (completedTargets (st.workers.set i (targetUrl, .fetching)))
                rw [completedTargets_set_same st.workers i targetUrl .created .fetching hget rfl]
                exact h2,
              joined := by
                intro j hj
                obtain ⟨hp, hjoin⟩ := hinv.joined j hj
                refine ⟨hp, fun k hk => ?_⟩
                obtain ⟨t, ht⟩ := hjoin k hk
                have hki : k ≠ i := by
                  rintro rfl
                  rw [hget] at ht
                  simp at ht
                refine ⟨t, ?_⟩
                simp only [List.get?_eq_getElem?] at ht ⊢
                rw [List.getElem?_set_ne (Ne.symm hki)]
                exact ht,
              finished := fun hdone => absurd hdone hd,
              notDisplayed := fun hdone => hinv.notDisplayed hdone }
    | fetching =>
      simp only [worker, workerBody_eq, Option.some.injEq] at h
      subst h
      have hd : st.coord ≠ .done := by
        rcases hnotdone with h | h
        · exact h
        · exact absurd h (by simp)
      exact { targets := by
                simp only [map_fst_set _ _ _ _ _ hget]
                exact hinv.targets,
              found := by
                obtain ⟨order, h1, h2⟩ := hinv.found
                refine ⟨order ++ [targetUrl], ?_, ?_⟩
                · simp only [h1, List.map_append, List.flatten_append, List.map_cons,
                    List.map_nil, List.flatten_cons, List.flatten_nil, List.append_nil]
                · exact (List.Perm.append_right _ h2).trans
                    (completedTargets_set_new st.workers i targetUrl .fetching .sleeping hget rfl rfl).symm,
              joined := by
                intro j hj
                obtain ⟨hp, hjoin⟩ := hinv.joined j hj
                refine ⟨hp, fun k hk => ?_⟩
                obtain ⟨t, ht⟩ := hjoin k hk
                have hki : k ≠ i := by
                  rintro rfl
                  rw [hget] at ht
                  simp at ht
                refine ⟨t, ?_⟩
                simp only [List.get?_eq_getElem?] at ht ⊢
                rw [List.getElem?_set_ne (Ne.symm hki)]
                exact ht,
              finished := fun hdone => absurd hdone hd,
              notDisplayed := fun hdone => hinv.notDisplayed hdone }
    | sleeping =>
      simp only [worker, Option.some.injEq] at h
      subst h
      have hd : st.coord ≠ .done := by
        rcases hnotdone with h | h
        · exact h
        · exact absurd h (by simp)
      exact { targets := by
                simp only [map_fst_set _ _ _ _ _ hget]
                exact hinv.targets,
              found := by
                obtain ⟨order, h1, h2⟩ := hinv.found
                refine ⟨order, h1, ?_⟩
                show order.Perm (completedTargets (st.workers.set i (targetUrl, .finished)))
                rw [completedTargets_set_same st.workers i targetUrl .sleeping .finished hget rfl]
                exact h2,
              joined := by
                intro j hj
                obtain ⟨hp, hjoin⟩ := hinv.joined j hj
                refine ⟨hp, fun k hk => ?_⟩
                obtain ⟨t, ht⟩ := hjoin k hk
                have hki : k ≠ i := by
                  rintro rfl
                  rw [hget] at ht
                  simp at ht
                refine ⟨t, ?_⟩
                simp only [List.get?_eq_getElem?] at ht ⊢
                rw [List.getElem?_set_ne (Ne.symm hki)]
                exact ht,
              finished := fun hdone => absurd hdone hd,
              notDisplayed := fun hdone => hinv.notDisplayed hdone }
    | finished => simp [worker] at h

theorem step_inv (env : Env) (url : Str) (maxThreads : Int) (st st' : CrawlState) (e : Event)
    (hinv : CrawlInv env url st) (h : step env maxThreads st e = some st') :
    CrawlInv env url st' := by
  cases e with
  | coord => exact crawlStep_inv env url maxThreads st st' hinv h
  | worker i => exact workerStep_inv env url maxThreads st st' i hinv h

theorem run_inv (env : Env) (url : Str) (maxThreads : Int) :
    ∀ (sched : List Event) (st st' : CrawlState), CrawlInv env url st →
      run env maxThreads sched st = some st' → CrawlInv env url st' := by
  intro sched
  induction sched with
  | nil =>
    intro st st' hinv h
    simp only [run, Option.some.injEq] at h
    exact h ▸ hinv
  | cons e es ih =>
    intro st st' hinv h
    simp only [run] at h
    split at h
    · rename_i st1 hstep
      exact ih st1 st' (step_inv env url maxThreads st st1 e hinv hstep) h
    · exact absurd h (by simp)

/-- The links a crawl hands to `displayLinks` are the contributions of the workers of all
the candidates, one after the other, in the order in which the workers took the mutex. -/
theorem crawl_result (env : Env) (url : Str) (maxThreads delay depth : Int)
    (sched : List Event) (links : List Str)
    (h : crawl env url maxThreads delay depth sched = some links) :
    ∃ order : List Str, order.Perm (generatePermutations url) ∧
      links = (order.map (workerContribution env)).flatten := by
  unfold crawl at h
  split at h
  · rename_i st hrun
    have hinv := run_inv env url maxThreads sched _ st (crawlInit_inv env url) hrun
    have hdone : st.coord = .done := by
      by_contra hnd
      rw [hinv.notDisplayed hnd] at h
      exact absurd h (by simp)
    obtain ⟨hpend, hfin, hdisp⟩ := hinv.finished hdone
    obtain ⟨order, h1, h2⟩ := hinv.found
    refine ⟨order, ?_, ?_⟩
    · have htargets := hinv.targets
      rw [hpend, List.append_nil] at htargets
      rw [← htargets]
      refine h2.trans ?_
      unfold completedTargets
      have : st.workers.filter pastCritical = st.workers := by
        rw [List.filter_eq_self]
        intro w hw
        simp [pastCritical, hfin w hw]
      rw [this]
    · rw [hdisp] at h
      simp only [Option.some.injEq] at h
      rw [← h, h1]
  · exact absurd h (by simp)

theorem run_append (env : Env) (maxThreads : Int) (s1 s2 : List Event) (st st1 : CrawlState)
    (h : run env maxThreads s1 st = some st1) :
    run env maxThreads (s1 ++ s2) st = run env maxThreads s2 st1 := by
  induction s1 generalizing st with
  | nil =>
    simp only [run, Option.some.injEq] at h
    subst h
    rfl
  | cons e es ih =>
    simp only [run, List.cons_append] at h ⊢
    cases hstep : step env maxThreads st e with
    | none => rw [hstep] at h; exact absurd h (by simp)
    | some st' =>
      rw [hstep] at h
      exact ih st' h

theorem get?_length_append (ws : List (Str × WorkerPc)) (a : Str × WorkerPc) :
    (ws ++ [a]).get? ws.length = some a := by
  simp [List.get?_eq_getElem?]

theorem set_length_append (ws : List (Str × WorkerPc)) (a b : Str × WorkerPc) :
    (ws ++ [a]).set ws.length b = ws ++ [b] := by
  induction ws with
  | nil => rfl
  | cons w ws ih => simp [ih]

/-- One round of the sequential schedule: from the head of the loop with no worker
running, the coordinator spawns the next worker and the worker runs to its end. -/
theorem run_round (env : Env) (maxThreads : Int) (t : Str) (rest : List Str)
    (ws : List (Str × WorkerPc)) (found : List Str) :
    ∃ sched, run env maxThreads sched ⟨t :: rest, .gate, ws, 0, found, none⟩ =
      some ⟨rest, .gate, ws ++ [(t, .finished)], 0, found ++ workerContribution env t, none⟩ := by
  by_cases hk : (0 : Int) ≥ maxThreads
  · refine ⟨[.coord, .coord, .coord, .worker ws.length, .worker ws.length, .worker ws.length],
      ?_⟩
    simp [run, step, crawlStep, hk, worker, workerBody_eq, get?_length_append,
      set_length_append]
  · refine ⟨[.coord, .coord, .worker ws.length, .worker ws.length, .worker ws.length], ?_⟩
    simp [run, step, crawlStep, hk, worker, workerBody_eq, get?_length_append,
      set_length_append]

/-- The sequential schedule for the whole `for` loop. -/
theorem run_spawn_all (env : Env) (maxThreads : Int) :
    ∀ (pending : List Str) (ws : List (Str × WorkerPc)) (found : List Str),
    ∃ sched, run env maxThreads sched ⟨pending, .gate, ws, 0, found, none⟩ =
      some ⟨[], .gate, ws ++ pending.map (fun t => (t, WorkerPc.finished)), 0,
        found ++ (pending.map (workerContribution env)).flatten, none⟩ := by
  intro pending
  induction pending with
  | nil =>
    intro ws found
    exact ⟨[], by simp [run]⟩
  | cons t rest ih =>
    intro ws found
    obtain ⟨s1, h1⟩ := run_round env maxThreads t rest ws found
    obtain ⟨s2, h2⟩ := ih (ws ++ [(t, .finished)]) (found ++ workerContribution env t)
    refine ⟨s1 ++ s2, ?_⟩
    rw [run_append env maxThreads s1 s2 _ _ h1, h2]
    simp

/-- The join loop, when every worker has finished. -/
theorem run_join_all (env : Env) (maxThreads : Int) (ws : List (Str × WorkerPc))
    (hws : ∀ w ∈ ws, w.2 = .finished) (active : Int) (found : List Str) :
    ∀ (n j : Nat), j + n = ws.length →
    ∃ sched, run env maxThreads sched ⟨[], .joining j, ws, active, found, none⟩ =
      some ⟨[], .done, ws, active, found, some found⟩ := by
  intro n
  induction n with
  | zero =>
    intro j hj
    refine ⟨[.coord], ?_⟩
    have : ws.get? j = none := by
      rw [List.get?_eq_getElem?, List.getElem?_eq_none_iff]
      omega
    simp only [run, step, crawlStep, this]
  | succ n ih =>
    intro j hj
    obtain ⟨s, hs⟩ := ih (j + 1) (by omega)
    refine ⟨.coord :: s, ?_⟩
    have hlt : j < ws.length := by omega
    cases hget : ws.get? j with
    | none =>
      rw [List.get?_eq_getElem?, List.getElem?_eq_none_iff] at hget
      omega
    | some w =>
      have hfin : w.2 = .finished := hws w (List.get?_mem hget)
      obtain ⟨t, pc⟩ := w
      simp only at hfin
      subst hfin
      simp only [run, step, crawlStep, hget, if_true]
      exact hs

/-- For every environment, host and `maxThreads` there is a schedule under which `crawl`
comes to its end: the one that runs the workers one after the other. -/
theorem crawl_completes (env : Env) (url : Str) (maxThreads delay depth : Int) :
    ∃ sched, crawl env url maxThreads delay depth sched =
      some ((generatePermutations url).map (workerContribution env)).flatten := by
  obtain ⟨s1, h1⟩ := run_spawn_all env maxThreads (generatePermutations url) [] []
  obtain ⟨s2, h2⟩ := run_join_all env maxThreads
    ((generatePermutations url).map (fun t => (t, WorkerPc.finished)))
    (by intro w hw; obtain ⟨t, _, rfl⟩ := List.mem_map.1 hw; rfl) 0
    ((generatePermutations url).map (workerContribution env)).flatten
    _ 0 (Nat.zero_add _)
  refine ⟨s1 ++ (.coord :: s2), ?_⟩
  unfold crawl crawlInit
  rw [run_append env maxThreads s1 _ _ _ h1]
  simp only [run, step, crawlStep, List.nil_append]
  rw [h2]

/-- C1 as stated fails: with `example.com`, `maxThreads = 4`, `delay = 0`, every request
returning the same body of two distinct links and every check succeeding, the links handed
to `displayLinks` are twenty, each of the two links ten times, not two. -/
theorem crawl_example_twenty_links :
    (crawl (stubEnv twoLinksBody) "example.com".toList 4 0 0 (sequentialSchedule 10)).map
        List.length = some 20 ∧
    (crawl (stubEnv twoLinksBody) "example.com".toList 4 0 0 (sequentialSchedule 10)).map
        (List.count "http://a.b".toList) = some 10 ∧
    (crawl (stubEnv twoLinksBody) "example.com".toList 4 0 0 (sequentialSchedule 10)).map
        List.length ≠ some 2 := by
  decide

theorem flatten_replicate_length (n : Nat) (l : List Str) :
    (List.replicate n l).flatten.length = n * l.length := by
  induction n with
  | zero => simp
  | succ n ih => simp [List.replicate_succ, ih]; ring

theorem flatten_replicate_count (n : Nat) (l : List Str) (x : Str) :
    (List.replicate n l).flatten.count x = n * l.count x := by
  induction n with
  | zero => simp
  | succ n ih => simp [List.replicate_succ, List.count_append, ih]; ring

/-- C1, amended. The result of `crawl` is a sequence with repetitions: for every base
host, when every request returns the same body and every check succeeds, the crawl can
come to its end, and the links handed to `displayLinks` are then the links extracted from
the body, ten times over, once for each candidate; a link occurs ten times as often as in
the extraction. -/
theorem crawl_same_body (env : Env) (url body : Str) (maxThreads delay depth : Int)
    (hget : ∀ u, env.get u = some (CURLE_OK, body))
    (hhead : ∀ l, checkLink env l = true) :
    ∃ found : List Str, extractLinks body = some found ∧
      (∃ sched, crawl env url maxThreads delay depth sched =
        some (List.replicate 10 found).flatten) ∧
      ∀ (sched : List Event) (links : List Str),
        crawl env url maxThreads delay depth sched = some links →
        links = (List.replicate 10 found).flatten ∧
        links.length = 10 * found.length ∧
        ∀ l, links.count l = 10 * found.count l := by
  obtain ⟨found, hfound⟩ := extractLinks_total body
  have hcontrib : ∀ t, workerContribution env t = found := by
    intro t
    simp only [workerContribution, hget, hfound, if_true]
    rw [List.filter_eq_self]
    exact fun l _ => hhead l
  have hall : ∀ (sched : List Event) (links : List Str),
      crawl env url maxThreads delay depth sched = some links →
      links = (List.replicate 10 found).flatten := by
    intro sched links h
    obtain ⟨order, hperm, hlinks⟩ := crawl_result env url maxThreads delay depth sched links h
    have hlen : order.length = 10 := by
      rw [hperm.length_eq]
      exact generatePermutations_length url
    rw [hlinks, ← hlen]
    congr 1
    rw [List.eq_replicate_iff]
    exact ⟨by simp, fun b hb => by
      obtain ⟨t, _, rfl⟩ := List.mem_map.1 hb
      exact hcontrib t⟩
  refine ⟨found, hfound, ?_, ?_⟩
  · obtain ⟨sched, hs⟩ := crawl_completes env url maxThreads delay depth
    exact ⟨sched, by rw [← hall sched _ hs]; exact hs⟩
  · intro sched links h
    have heq := hall sched links h
    refine ⟨heq, ?_, ?_⟩
    · rw [heq, flatten_replicate_length]
    · intro l
      rw [heq, flatten_replicate_count]

/-- C1 amended, at the input of the specification: `example.com`, `maxThreads = 4`,
`delay = 0`, a body of two links; the result has twenty entries. -/
theorem crawl_same_body_witness :
    ∃ found : List Str, extractLinks twoLinksBody = some found ∧
      (∃ sched, crawl (stubEnv twoLinksBody) "example.com".toList 4 0 0 sched =
        some (List.replicate 10 found).flatten) ∧
      ∀ (sched : List Event) (links : List Str),
        crawl (stubEnv twoLinksBody) "example.com".toList 4 0 0 sched = some links →
        links = (List.replicate 10 found).flatten ∧
        links.length = 10 * found.length ∧
        ∀ l, links.count l = 10 * found.count l :=
  crawl_same_body (stubEnv twoLinksBody) "example.com".toList twoLinksBody 4 0 0
    (fun _ => rfl) (fun _ => rfl)

/-- C2. For every target and every prior `foundLinks`: when the request fails the worker
leaves `foundLinks` as it is, and when it succeeds the worker appends the extracted links
that pass `checkLink`, in extraction order, after the earlier entries; the worker's step
changes nothing else but its own position, so the other workers and the coordinator go
on; and whatever requests fail the crawl can come to its end, and the links of a crawl
that reaches `displayLinks` are made of the contributions of the workers of all the
candidates, a failed request contributing nothing. -/
theorem worker_postcondition (env : Env) (targetUrl : Str) (foundLinks : List Str) :
    (∀ res readBuffer, env.get targetUrl = some (res, readBuffer) → res ≠ CURLE_OK →
      workerBody env targetUrl foundLinks = some foundLinks ∧
      workerContribution env targetUrl = []) ∧
    (∀ readBuffer, env.get targetUrl = some (CURLE_OK, readBuffer) →
      ∃ links, extractLinks readBuffer = some links ∧
        workerBody env targetUrl foundLinks = some (foundLinks ++ links.filter (checkLink env)) ∧
        workerContribution env targetUrl = links.filter (checkLink env)) ∧
    (∀ (maxThreads : Int) (st : CrawlState) (i : Nat),
      st.workers.get? i = some (targetUrl, .fetching) → st.foundLinks = foundLinks →
      ∃ st', step env maxThreads st (.worker i) = some st' ∧
        some st'.foundLinks = workerBody env targetUrl foundLinks ∧
        st'.pending = st.pending ∧ st'.coord = st.coord ∧
        st'.activeThreads = st.activeThreads ∧
        st'.workers.get? i = some (targetUrl, .sleeping) ∧
        ∀ j, j ≠ i → st'.workers.get? j = st.workers.get? j) ∧
    (∀ (url : Str) (maxThreads delay depth : Int),
      (∃ sched links, crawl env url maxThreads delay depth sched = some links) ∧
      ∀ (sched : List Event) (links : List Str),
        crawl env url maxThreads delay depth sched = some links →
        ∃ order : List Str, order.Perm (generatePermutations url) ∧
          links = (order.map (workerContribution env)).flatten) := by
  refine ⟨?_, ?_, ?_, ?_⟩
  · intro res readBuffer hget hres
    have hc : workerContribution env targetUrl = [] := by
      simp [workerContribution, hget, hres]
    exact ⟨by rw [workerBody_eq, hc, List.append_nil], hc⟩
  · intro readBuffer hget
    obtain ⟨links, hlinks⟩ := extractLinks_total readBuffer
    have hc : workerContribution env targetUrl = links.filter (checkLink env) := by
      simp [workerContribution, hget, hlinks]
    exact ⟨links, hlinks, by rw [workerBody_eq, hc], hc⟩
  · intro maxThreads st i hget hfound
    refine ⟨{ st with workers := st.workers.set i (targetUrl, .sleeping),
                      foundLinks := foundLinks ++ workerContribution env targetUrl },
      ?_, ?_, rfl, rfl, rfl, ?_, ?_⟩
    · simp only [step, hget, worker, hfound, workerBody_eq]
    · simp only [workerBody_eq]
    · have hi : i < st.workers.length := by
        by_contra hge
        have : st.workers.get? i = none := by
          rw [List.get?_eq_getElem?, List.getElem?_eq_none_iff]
          omega
        rw [this] at hget
        exact absurd hget (by simp)
      simp only [List.get?_eq_getElem?]
      rw [List.getElem?_set_self hi]
    · intro j hj
      simp only [List.get?_eq_getElem?]
      rw [List.getElem?_set_ne (Ne.symm hj)]
  · intro url maxThreads delay depth
    refine ⟨?_, fun sched links h => crawl_result env url maxThreads delay depth sched links h⟩
    obtain ⟨sched, hs⟩ := crawl_completes env url maxThreads delay depth
    exact ⟨sched, _, hs⟩

/-- C2, at a concrete input: the request for `http://example.com` fails, the worker leaves
`foundLinks` as it is, and the crawl of `example.com` still collects the two links of each
of the nine other candidates. -/
theorem worker_postcondition_witness :
    workerBody (failingEnv "http://example.com".toList twoLinksBody) "http://example.com".toList
        ["https://c.d".toList] = some ["https://c.d".toList] ∧
    workerContribution (failingEnv "http://example.com".toList twoLinksBody)
        "http://example.com".toList = [] ∧
    (crawl (failingEnv "http://example.com".toList twoLinksBody) "example.com".toList 4 0 0
        (sequentialSchedule 10)).map List.length = some 18 :=
  ⟨((worker_postcondition (failingEnv "http://example.com".toList twoLinksBody)
      "http://example.com".toList ["https://c.d".toList]).1 6 [] (by decide) (by decide)).1,
   ((worker_postcondition (failingEnv "http://example.com".toList twoLinksBody)
      "http://example.com".toList ["https://c.d".toList]).1 6 [] (by decide) (by decide)).2,
   by decide⟩

/-- C3 fails on the code.  With `maxThreads = 1` the coordinator's gate sees
`activeThreads >= maxThreads`, yields once and spawns the next worker all the same: two
workers run at once, and under another schedule all ten do. -/
theorem activeThreads_exceeds_maxThreads :
    (run (stubEnv []) 1 overlapSchedule (crawlInit "example.com".toList)).map
        (fun st => st.activeThreads) = some 2 ∧
    (run (stubEnv []) 1 allStartedSchedule (crawlInit "example.com".toList)).map
        (fun st => st.activeThreads) = some 10 := by
  decide

/-- C10 as stated fails: with a `maxThreads` argument that is not a number `std::stoi`
throws before the URL is looked at, and `main` does not return 1 although the URL is not
valid. -/
theorem main_bad_number_not_exit_one :
    isValidURL "not a url".toList = false ∧
    main (stubEnv []) argvBadNumber [] = some (.uncaught .invalid_argument) ∧
    main (stubEnv []) argvBadNumber [] ≠ some (.exit 1) := by
  decide

/-- C10, amended. `main` returns 1 when the number of arguments is not four; when the
three numeric arguments are accepted by `std::stoi`, it returns 1 when the URL is not
valid, 1 when the robots gate disallows, and 0 when the crawl comes to its end, whatever
links were found, which it does under the sequential schedule; and it returns nothing
else. -/
theorem main_exit_code (env : Env) (argv : List Str) (sched : List Event) :
    (argv.length ≠ 5 → main env argv sched = some (.exit 1)) ∧
    (∀ (argv0 url a2 a3 a4 : Str) (maxThreads delay depth : Int),
      argv = [argv0, url, a2, a3, a4] →
      stoi a2 = .ok maxThreads → stoi a3 = .ok delay → stoi a4 = .ok depth →
      (isValidURL url = false → main env argv sched = some (.exit 1)) ∧
      (isValidURL url = true → isAllowedByRobots env url = false →
        main env argv sched = some (.exit 1)) ∧
      (isValidURL url = true → isAllowedByRobots env url = true →
        (∀ links, crawl env url maxThreads delay depth sched = some links →
          main env argv sched = some (.exit 0)) ∧
        ∃ sched', main env argv sched' = some (.exit 0)) ∧
      (∀ out, main env argv sched = some out → out = .exit 1 ∨ out = .exit 0)) := by
  constructor
  · intro hlen
    match argv, hlen with
    | [], _ => rfl
    | [_], _ => rfl
    | [_, _], _ => rfl
    | [_, _, _], _ => rfl
    | [_, _, _, _], _ => rfl
    | [_, _, _, _, _], h => exact absurd rfl h
    | _ :: _ :: _ :: _ :: _ :: _ :: _, _ => rfl
  · intro argv0 url a2 a3 a4 maxThreads delay depth hargv h2 h3 h4
    subst hargv
    rw [main_eq env argv0 url a2 a3 a4 sched maxThreads delay depth h2 h3 h4]
    refine ⟨?_, ?_, ?_, ?_⟩
    · intro hv
      simp [hv]
    · intro hv hr
      simp [hv, hr]
    · intro hv hr
      refine ⟨fun links hc => by simp [hv, hr, hc], ?_⟩
      obtain ⟨sched', hc⟩ := crawl_completes env url maxThreads delay depth
      exact ⟨sched', by
        rw [main_eq env argv0 url a2 a3 a4 sched' maxThreads delay depth h2 h3 h4]
        simp [hv, hr, hc]⟩
    · intro out
      cases isValidURL url <;> cases isAllowedByRobots env url <;>
        cases crawl env url maxThreads delay depth sched <;> simp <;> intro h <;> simp [← h]

/-- C10 amended, at concrete inputs: too few arguments, a URL that is not valid, a
`robots.txt` that disallows, and a crawl of `example.com` that finds no link. -/
theorem main_exit_code_witness :
    main (stubEnv []) ["link-explorer".toList, "example.com".toList] [] = some (.exit 1) ∧
    main (stubEnv []) argvBadUrl [] = some (.exit 1) ∧
    main (stubEnv robotsDisallowAll) argvExample (sequentialSchedule 10) = some (.exit 1) ∧
    main (stubEnv []) argvExample (sequentialSchedule 10) = some (.exit 0) :=
  ⟨(main_exit_code (stubEnv []) ["link-explorer".toList, "example.com".toList] []).1
      (by decide),
   ((main_exit_code (stubEnv []) argvBadUrl []).2 "link-explorer".toList "not a url".toList
      "4".toList "0".toList "0".toList 4 0 0 rfl rfl rfl rfl).1 (by decide),
   ((main_exit_code (stubEnv robotsDisallowAll) argvExample (sequentialSchedule 10)).2
      "link-explorer".toList "example.com".toList "4".toList "0".toList "0".toList 4 0 0 rfl
      rfl rfl rfl).2.1 (by decide) (by decide),
   (((main_exit_code (stubEnv []) argvExample (sequentialSchedule 10)).2
      "link-explorer".toList "example.com".toList "4".toList "0".toList "0".toList 4 0 0 rfl
      rfl rfl rfl).2.2.1 (by decide) (by decide)).1 [] (by decide)⟩

end LinkExplorer
